import Mathlib

/-!
Verification of the basia APK signer's manifest codec and signing pipeline.

The Go sources are shallowly embedded: byte streams are `List Char` (all the
data handled by the codec is ASCII text; the transform only inspects CR/LF),
the stateful `wrap72` writer is explicit state passing of its column counter,
`Manifest` (a Go `map[string]Attributes`) is an association list whose
iteration-order nondeterminism is captured by quantifying over permutations,
and operations that can panic return `Option`.
-/

/-- Byte streams; each `Char` stands for one byte of the Go `[]byte`. -/
abbrev Bytes := List Char

/-- Attribute blocks: `type Attributes []string` from manifest.go. -/
abbrev Attributes := List Bytes

/-- Manifests: `type Manifest map[string]Attributes` from manifest.go,
as an association list.  The Go map's missing-key default and overwrite
assignment are `Manifest.lookup` and `Manifest.set`. -/
abbrev Manifest := List (Bytes × Attributes)

/-- `m[k]` on a Go `map[string]Attributes`: the nil slice for a missing key. -/
def Manifest.lookup : Manifest → Bytes → Attributes
  | [], _ => []
  | p :: rest, k => if p.1 = k then p.2 else Manifest.lookup rest k

/-- `m[k] = v` on a Go map: overwrite the key if present, else add it. -/
def Manifest.set : Manifest → Bytes → Attributes → Manifest
  | [], k, v => [(k, v)]
  | p :: rest, k, v => if p.1 = k then (k, v) :: rest else p :: Manifest.set rest k v

/-- The key set of the Go map (in association-list order; `WriteTo` sorts it). -/
def Manifest.keys (m : Manifest) : List Bytes := m.map Prod.fst

/-- The CR LF line terminator. -/
def CRLF : Bytes := ['\r', '\n']

/-- `bytes.IndexAny(buf, "\r\n")` test: is this byte a CR or LF? -/
def crlfByte (c : Char) : Bool := c = '\r' || c = '\n'

/-- manifest.go, `wrap72.Write` (lines 332-373): one `Write` call of the
line-wrap transform.  `n` is the receiver's column counter `w.n`; the result
is the byte stream passed down to the wrapped writer together with the new
counter.  `i0` is `bytes.IndexAny(buf, "\r\n")` with the `-1 ↦ len(buf)`
adjustment of the source.  The source's `w.n == max` test is totalized to
`70 ≤ w.n` (the two agree on every state the transform can reach, since the
counter never exceeds 70; at the unreachable counters above 70 the Go code
would slice with a negative index and panic). -/
def wrap72Write (buf : Bytes) (n : Nat) : Bytes × Nat :=
  match buf with
  | [] => ([], n)
  | c :: rest =>
    if crlfByte c then
      let pass := (c :: rest).takeWhile crlfByte
      let r := wrap72Write ((c :: rest).dropWhile crlfByte) 0
      (pass ++ r.1, r.2)
    else
      let i0 := (c :: rest).findIdx crlfByte
      if 70 ≤ n then
        let i := min i0 69
        let r := wrap72Write ((c :: rest).drop i) (1 + i)
        ('\r' :: '\n' :: ' ' :: (c :: rest).take i ++ r.1, r.2)
      else
        let i := min i0 (70 - n)
        let r := wrap72Write ((c :: rest).drop i) (n + i)
        ((c :: rest).take i ++ r.1, r.2)
termination_by buf.length
decreasing_by
  · simp only [List.dropWhile_cons]
    split
    · exact Nat.lt_succ_of_le (List.dropWhile_sublist _).length_le
    · simp_all
  · have h1 : 1 ≤ (c :: rest).findIdx crlfByte := by
      rw [List.findIdx_cons]
      simp_all
    have : 1 ≤ min ((c :: rest).findIdx crlfByte) 69 := le_min h1 (by omega)
    simp only [List.length_drop, List.length_cons]
    omega
  · have h1 : 1 ≤ (c :: rest).findIdx crlfByte := by
      rw [List.findIdx_cons]
      simp_all
    have : 1 ≤ min ((c :: rest).findIdx crlfByte) (70 - n) := le_min h1 (by omega)
    simp only [List.length_drop, List.length_cons]
    omega

/-- One byte through the wrap transform: the effect of `wrap72.Write` on a
single non-empty buffer of length one. -/
def w72step (c : Char) (n : Nat) : Bytes × Nat :=
  if crlfByte c then ([c], 0)
  else if n = 70 then (['\r', '\n', ' ', c], 2)
  else ([c], n + 1)

/-- Byte-at-a-time reference form of the wrap transform. -/
def charRun : Bytes → Nat → Bytes × Nat
  | [], n => ([], n)
  | c :: rest, n =>
    let s := w72step c n
    let r := charRun rest s.2
    (s.1 ++ r.1, r.2)

/-- Content-only image of the transform: what it emits for a CR/LF-free run
starting at column `n`, one byte at a time. -/
def wrapAt : Bytes → Nat → Bytes
  | [], _ => []
  | c :: m, n =>
    if n = 70 then '\r' :: '\n' :: ' ' :: c :: wrapAt m 2 else c :: wrapAt m (n + 1)

/-- Final column after a CR/LF-free run. -/
def wrapAtN : Bytes → Nat → Nat
  | [], n => n
  | _ :: m, n => if n = 70 then wrapAtN m 2 else wrapAtN m (n + 1)

/-- Prepend one byte to the first piece of a line split. -/
def consHead (c : Char) : List Bytes → List Bytes
  | [] => [[c]]
  | l :: ls => (c :: l) :: ls

/-- Split a byte stream at its CR LF pairs.  The pieces are the physical
lines without their terminators; the last piece is the trailing unterminated
segment (empty when the stream ends with CR LF). -/
def physSplit : Bytes → List Bytes
  | [] => [[]]
  | [c] => [[c]]
  | c :: d :: s =>
    if c = '\r' ∧ d = '\n' then [] :: physSplit s
    else consHead c (physSplit (d :: s))

/-- The physical-line pieces `wrapAt` produces for a CR/LF-free run starting
at column `n`: the first piece finishes the current line, and each later
piece is a continuation line beginning with the inserted space. -/
def chunkLinesAt : Bytes → Nat → List Bytes
  | [], _ => [[]]
  | c :: m, n =>
    if n = 70 then [] :: consHead ' ' (consHead c (chunkLinesAt m 2))
    else consHead c (chunkLinesAt m (n + 1))

/-- One logical line as wrapped and terminated by the transform. -/
def wrapLineCRLF (l : Bytes) : Bytes := wrapAt l 0 ++ CRLF

/-- A document of logical lines after wrapping: each line wrapped from
column 0 and CR LF terminated. -/
def wrapDoc (ls : List Bytes) : Bytes := (ls.map wrapLineCRLF).flatten

/-- Every CR and LF of the stream occurs as (part of) a `"\r\n"` pair. -/
def crlfPairedB : Bytes → Bool
  | [] => true
  | [c] => !crlfByte c
  | c :: d :: s =>
    if c = '\r' ∧ d = '\n' then crlfPairedB s
    else !crlfByte c && crlfPairedB (d :: s)

/-- Successive `wrap72.Write` calls on one instance: thread the column
counter through the chunks, concatenating everything passed to the
underlying writer. -/
def feedAll (chunks : List Bytes) (n : Nat) : Bytes × Nat :=
  chunks.foldl
    (fun acc chunk => (acc.1 ++ (wrap72Write chunk acc.2).1, (wrap72Write chunk acc.2).2))
    ([], n)

/-- Input refuting the unconditional wrap invariant: a lone LF resets the
transform's column counter without ending a `"\r\n"`-delimited line. -/
def c3CounterInput : Bytes :=
  List.replicate 70 'a' ++ '\n' :: 'b' :: 'b' :: 'b' :: '\r' :: '\n' :: ['c']

/-- `dropCR` of bufio.ScanLines: strip one trailing CR from a token. -/
def dropCR (l : Bytes) : Bytes := if l.getLast? = some '\r' then l.dropLast else l

/-- Split at every LF, keeping all segments (one more segment than LFs). -/
def rawSplit : Bytes → List Bytes
  | [] => [[]]
  | c :: s => if c = '\n' then [] :: rawSplit s else consHead c (rawSplit s)

/-- The scanned lines of `ParseManifest`: bufio.Scanner with ScanLines over
`io.MultiReader(r, strings.NewReader("\r\n\r\n"))` (manifest.go lines
239-240).  Tokens are the LF-separated segments with one trailing CR
stripped; the padded stream always ends in LF, so its final empty segment
yields no token. -/
def mfLines (input : Bytes) : List Bytes :=
  ((rawSplit (input ++ '\r' :: '\n' :: '\r' :: ['\n'])).dropLast).map dropCR

/-- Parser state: the manifest `m` built so far, the current section name
`k`, and the current attribute block `v` (manifest.go line 237). -/
structure PState where
  m : Manifest
  k : Bytes
  v : Attributes

/-- manifest.go, `ParseManifest` loop body (lines 241-262): the `switch` on
one scanned line. -/
def parseLine (s : PState) (line : Bytes) : PState :=
  if line = [] then
    if 0 < s.v.length then ⟨s.m.set s.k s.v, [], []⟩ else s
  else if "Name: ".data.isPrefixOf line then
    ⟨s.m, line.drop 6, s.v⟩
  else if [' '].isPrefixOf line then
    if s.v.length = 0 then ⟨s.m, s.k ++ line.drop 1, s.v⟩
    else ⟨s.m, s.k, s.v.dropLast ++ [s.v.getLastD [] ++ line.drop 1]⟩
  else ⟨s.m, s.k, s.v ++ [line]⟩

/-- manifest.go, `ParseManifest` (lines 234-267): fold the loop body over
the scanned lines from the empty state.  Read errors of the underlying
stream do not arise in the pure model, so the error return is dropped. -/
def ParseManifest (input : Bytes) : Manifest :=
  ((mfLines input).foldl parseLine ⟨[], [], []⟩).m

/-- manifest.go, `Manifest.WriteEntry` (lines 307-322): one entry's block,
written through a fresh `wrap72` layered on the given writer — `Name: `
line then the entry's attribute lines, each CR LF terminated, one `Write`
call per line through one threaded counter starting at 0. -/
def writeEntry (m : Manifest) (name : Bytes) : Bytes :=
  (feedAll (("Name: ".data ++ name ++ CRLF) :: (m.lookup name).map (fun a => a ++ CRLF)) 0).1

/-- manifest.go, `Manifest.WriteTo` (lines 269-305): main-section attribute
lines through the method's own `wrap72`, then the per-file sections sorted
by name (dropping the leading `""` main key), each preceded by a blank
line, then the trailing extra blank line.  `WriteEntry`'s bytes pass
through the outer `wrap72` as a single chunk, which by
`feedAll_eq_charRun`/`charRun_append` produces the same stream as its
per-line `Write` calls.  The empty manifest hits `names[0]` on an empty
slice — a runtime panic, modelled as `none`. -/
def writeTo (m : Manifest) : Option Bytes :=
  match List.insertionSort (fun a b : Bytes => a ≤ b) m.keys with
  | [] => none
  | n0 :: rest =>
    let names := if n0 = ([] : Bytes) then rest else n0 :: rest
    let s1 := feedAll ((m.lookup []).map (fun a => a ++ CRLF)) 0
    let s2 := names.foldl (fun s nm =>
      ((s.1 ++ (wrap72Write CRLF s.2).1)
          ++ (wrap72Write (writeEntry m nm) (wrap72Write CRLF s.2).2).1,
        (wrap72Write (writeEntry m nm) (wrap72Write CRLF s.2).2).2)) s1
    some (s2.1 ++ (wrap72Write CRLF s2.2).1)

/-- Go `path.Match` semantics for the patterns this program uses: a literal
stem, a single `*` matching any run of non-separator (`/`) bytes, and a
literal star-free tail. -/
def globStar (stem tl name : Bytes) : Bool :=
  stem.isPrefixOf name &&
    (tl.length ≤ (name.drop stem.length).length &&
      (tl.isSuffixOf (name.drop stem.length) &&
        (((name.drop stem.length).take
            ((name.drop stem.length).length - tl.length)).all (fun c => !(c = '/')))))

/-- apksigner.go, `isSpecialIgnored` (lines 248-266): the exclusion policy.
The `path.Match` calls on the five one-star patterns are modelled by
`globStar` with the Go library's semantics (`*` matches any run of
non-separator bytes; the patterns are star-free around the single `*`). -/
def isSpecialIgnored (name : Bytes) : Bool :=
  if "META-INF/".data.isPrefixOf name then
    decide (name = "META-INF/MANIFEST.MF".data)
      || globStar "META-INF/".data ".SF".data name
      || globStar "META-INF/".data ".RSA".data name
      || globStar "META-INF/".data ".DSA".data name
      || globStar "META-INF/".data ".EC".data name
      || globStar "META-INF/SIG-".data [] name
  else false

/-- Glue for splitting an appended stream at a CR LF boundary: the CR joins
the last open segment of the left part; the LF opens the right part. -/
def glueCR (A B : List Bytes) : List Bytes :=
  A.dropLast ++ (A.getLastD [] ++ ['\r']) :: B

/-- Helper of `Attributes.Without`: drop the first line carrying the given
prefix, keeping every other line in order (`append(as[:i:i], as[i+1:]...)`
of the source). -/
def withoutFirst (pre : Bytes) : Attributes → Attributes
  | [] => []
  | a :: rest => if pre.isPrefixOf a then rest else a :: withoutFirst pre rest

/-- manifest.go, `Attributes.Without` (lines 224-232): remove the first
line whose key matches `key` (prefix `key ++ ": "`). -/
def Attributes.without (as : Attributes) (key : Bytes) : Attributes :=
  withoutFirst (key ++ ": ".data) as

/-- apksigner.go, `signZip` (lines 141-143): the manifest section rebuilt
for a retained entry — the old attributes with any stale `SHA1-Digest` line
removed, then the freshly computed digest line appended. -/
def signZipSection (oldAttrs : Attributes) (digestVal : Bytes) : Attributes :=
  oldAttrs.without "SHA1-Digest".data ++ ["SHA1-Digest: ".data ++ digestVal]

/-- apksigner.go, `signZip` line 150: the byte stream
`manifest.WriteTo(packed)` writes to the output archive's
`META-INF/MANIFEST.MF` entry. -/
def manifestArchiveBytes (m : Manifest) : Option Bytes := writeTo m

/-- apksigner.go, `writeSignatureFile` lines 279-283: the byte stream
`manifest.WriteTo(hasher)` feeds to the SHA-1 accumulator for the
`SHA1-Digest-Manifest` attribute. -/
def digestManifestFeed (m : Manifest) : Option Bytes := writeTo m

/-- apksigner.go, `writeSignatureFile` lines 292-300: the bytes hashed for
one entry's `SHA1-Digest` attribute — `WriteEntry` plus the trailing blank
separator line. -/
def entryDigestFeed (m : Manifest) (name : Bytes) : Bytes :=
  writeEntry m name ++ CRLF

/-- apksigner.go, `writeSignatureFile` (lines 268-308), with the SHA-1 hash
and base64 encoder abstract.  `sortedFiles` is the name list of `r.File`
after `signZip`'s sort; entries without manifest attributes are skipped.
The result is what reaches `w` — note the `Name:` and digest lines are
written straight to `w`, not through a wrap transform.  Hashing the
manifest panics on an empty manifest (see `writeTo`): `none`. -/
def writeSignatureFile (sha1 b64 : Bytes → Bytes) (m : Manifest)
    (sortedFiles : List Bytes) : Option Bytes :=
  match digestManifestFeed m with
  | none => none
  | some mf =>
    some ("Signature-Version: 1.0\r\n".data
      ++ "Created-By: 1.0 (Android SignApk)\r\n".data
      ++ "SHA1-Digest-Manifest: ".data ++ b64 (sha1 mf) ++ CRLF ++ CRLF
      ++ (sortedFiles.filter (fun f => !(m.lookup f).isEmpty)).flatMap
          (fun f => "Name: ".data ++ f ++ CRLF
            ++ "SHA1-Digest: ".data ++ b64 (sha1 (entryDigestFeed m f)) ++ CRLF ++ CRLF))

/-- The repository's own sample resource name (67 bytes, from
manifest_test.go). -/
def c5Name : Bytes :=
  "res/drawable/abc_list_selector_background_transition_holo_dark.xml".data

/-- A manifest holding that entry, as `signZip` would build it. -/
def c5Manifest : Manifest :=
  [([], ["Manifest-Version: 1.0".data]),
    (c5Name, ["SHA1-Digest: x6OHiSoyMWiuIOgpmUuAh/tRnYM=".data])]

/-- An input archive entry: name, directory flag, raw decompressed
content. -/
structure ZipEntry where
  name : Bytes
  isDir : Bool
  content : Bytes
deriving DecidableEq

/-- apksigner.go, `signZip` lines 126-128: `sort.Slice(r.File)` by name.
The Go sort is unstable, so with duplicate names the order of equals is
unspecified; the determinism theorem assumes duplicate-free names, under
which any sort by name produces this list. -/
def sortFiles (files : List ZipEntry) : List ZipEntry :=
  List.insertionSort (fun f g => f.name ≤ g.name) files

/-- apksigner.go, `signZip` lines 122-144: the new manifest — the main
section copied from the old manifest, then one rebuilt section per
non-directory, non-excluded entry, assigned in sorted order.  `sha1` is
`sha1sum` over the entry's decompressed content, `b64` is `base64enc`. -/
def signZipManifest (sha1 b64 : Bytes → Bytes) (old : Manifest)
    (files : List ZipEntry) : Manifest :=
  ((sortFiles files).filter (fun f => !f.isDir && !isSpecialIgnored f.name)).foldl
    (fun m f => m.set f.name (signZipSection (old.lookup f.name) (b64 (sha1 f.content))))
    [([], old.lookup [])]

/-- apksigner.go, `signZip` line 150: the output `META-INF/MANIFEST.MF`
bytes of one signing run. -/
def signZipManifestBytes (sha1 b64 : Bytes → Bytes) (old : Manifest)
    (files : List ZipEntry) : Option Bytes :=
  writeTo (signZipManifest sha1 b64 old files)

/-- apksigner.go, `signZip` line 161: the output `META-INF/CERT.SF` bytes
of one signing run (`writeSignatureFile` over the sorted entry list). -/
def signZipCertSf (sha1 b64 : Bytes → Bytes) (old : Manifest)
    (files : List ZipEntry) : Option Bytes :=
  writeSignatureFile sha1 b64 (signZipManifest sha1 b64 old files)
    ((sortFiles files).map ZipEntry.name)

/-- The per-file section names `WriteTo` iterates: the sorted key list with
a leading `""` (main section) dropped. -/
def writeToNames (m : Manifest) : List Bytes :=
  match List.insertionSort (fun a b : Bytes => a ≤ b) m.keys with
  | [] => []
  | n0 :: rest => if n0 = ([] : Bytes) then rest else n0 :: rest

/-- The logical lines `WriteTo` pushes through its wrap transform: the
main-section attributes, then per sorted non-main name a blank separator
line, the `Name:` line and the section's attribute lines, then the final
extra blank line. -/
def docLines (m : Manifest) : List Bytes :=
  m.lookup [] ++
    ((writeToNames m).flatMap
      (fun nm => [] :: ("Name: ".data ++ nm) :: m.lookup nm)) ++ [[]]

def commitB (s : PState) : Manifest := if s.v = [] then s.m else s.m.set s.k s.v

/-- The result of parsing back the serialized stream collapses to this base:
the main section committed at the first blank line if it has attribute
lines, nothing otherwise. -/
def c2Base (M : Manifest) : Manifest :=
  if M.lookup [] = [] then [] else [([], M.lookup [])]

/-- A manifest with no pathological content, as the round-trip needs it:
duplicate-free keys; names free of CR and LF; every section non-empty; and
attribute lines that are non-empty, free of CR and LF, not starting with a
space, and not starting with `"Name: "`. -/
abbrev goodManifest (M : Manifest) : Prop :=
  M.keys.Nodup ∧
  ∀ p ∈ M, (∀ c ∈ p.1, crlfByte c = false) ∧ p.2 ≠ [] ∧
    ∀ a ∈ p.2, a ≠ [] ∧ "Name: ".data.isPrefixOf a = false ∧
      [' '].isPrefixOf a = false ∧ ∀ c ∈ a, crlfByte c = false

def c2CounterM : Manifest := [("x".data, [])]

theorem charRun_cons (c : Char) (rest : Bytes) (n : Nat) :
    charRun (c :: rest) n =
      ((w72step c n).1 ++ (charRun rest (w72step c n).2).1,
        (charRun rest (w72step c n).2).2) := rfl

theorem charRun_append (a b : Bytes) (n : Nat) :
    charRun (a ++ b) n =
      ((charRun a n).1 ++ (charRun b (charRun a n).2).1, (charRun b (charRun a n).2).2) := by
  induction a generalizing n with
  | nil => simp [charRun]
  | cons c a ih => simp [charRun, ih, List.append_assoc]

theorem charRun_state_le (buf : Bytes) (n : Nat) (h : n ≤ 70) : (charRun buf n).2 ≤ 70 := by
  induction buf generalizing n with
  | nil => simpa [charRun]
  | cons c rest ih =>
    simp only [charRun]
    apply ih
    unfold w72step
    split
    · omega
    · split <;> omega

theorem charRun_content (l t : Bytes) (n : Nat)
    (hl : ∀ c ∈ l, crlfByte c = false) (hn : n + l.length ≤ 70) :
    charRun (l ++ t) n = (l ++ (charRun t (n + l.length)).1, (charRun t (n + l.length)).2) := by
  induction l generalizing n with
  | nil => simp [charRun]
  | cons c l ih =>
    have hc : crlfByte c = false := hl c (by simp)
    have hne : n ≠ 70 := by simp only [List.length_cons] at hn; omega
    have hstep : w72step c n = ([c], n + 1) := by simp [w72step, hc, hne]
    have ih2 := ih (n + 1) (fun d hd => hl d (by simp [hd]))
      (by simp only [List.length_cons] at hn; omega)
    have harith : n + 1 + l.length = n + (l.length + 1) := by omega
    rw [List.cons_append, charRun_cons, hstep]
    simp only [ih2, harith, List.length_cons]
    simp

theorem charRun_crlfRun (l t : Bytes) (n : Nat) (hne : l ≠ [])
    (hl : ∀ c ∈ l, crlfByte c = true) :
    charRun (l ++ t) n = (l ++ (charRun t 0).1, (charRun t 0).2) := by
  induction l generalizing n with
  | nil => exact absurd rfl hne
  | cons c l ih =>
    have hc : crlfByte c = true := hl c (by simp)
    have hstep : w72step c n = ([c], 0) := by simp [w72step, hc]
    cases l with
    | nil => simp [charRun, w72step, hc]
    | cons d l =>
      have ih2 := ih (0) (by simp) (fun e he => hl e (by simp [he]))
      rw [List.cons_append, charRun_cons, hstep]
      simp only [ih2]
      simp

theorem take_findIdx_false (p : Char → Bool) (l : Bytes) (j : Nat) (hj : j ≤ l.findIdx p) :
    ∀ c ∈ l.take j, p c = false := by
  induction l generalizing j with
  | nil => simp
  | cons a l ih =>
    cases j with
    | zero => simp
    | succ j =>
      rw [List.findIdx_cons] at hj
      by_cases hpa : p a = true
      · simp [hpa] at hj
      · intro c hc
        rw [List.take_succ_cons] at hc
        rcases List.mem_cons.1 hc with rfl | hc
        · simpa using hpa
        · refine ih j ?_ c hc
          simp only [hpa, cond_false] at hj
          omega

theorem wrap72Write_eq_charRun_aux (N : Nat) :
    ∀ (buf : Bytes), buf.length ≤ N → ∀ n, n ≤ 70 → wrap72Write buf n = charRun buf n := by
  induction N with
  | zero =>
    intro buf hb n _
    have : buf = [] := List.eq_nil_of_length_eq_zero (Nat.le_zero.1 hb)
    subst this
    simp [wrap72Write, charRun]
  | succ N ih =>
    intro buf hb n hn
    match buf with
    | [] => simp [wrap72Write, charRun]
    | c :: rest =>
      have hrest : rest.length ≤ N := by simpa using hb
      by_cases hc : crlfByte c
      · have htw : (c :: rest).takeWhile crlfByte = c :: rest.takeWhile crlfByte :=
          List.takeWhile_cons_of_pos hc
        have hdw : (c :: rest).dropWhile crlfByte = rest.dropWhile crlfByte :=
          List.dropWhile_cons_of_pos hc
        have hdwlen : (rest.dropWhile crlfByte).length ≤ N :=
          le_trans (List.dropWhile_sublist _).length_le hrest
        have hih := ih (rest.dropWhile crlfByte) hdwlen 0 (by omega)
        have hsplit : (c :: rest).takeWhile crlfByte ++ (c :: rest).dropWhile crlfByte
            = c :: rest := List.takeWhile_append_dropWhile _ _
        have htwall : ∀ d ∈ (c :: rest).takeWhile crlfByte, crlfByte d = true :=
          fun d hd => List.mem_takeWhile_imp hd
        have htwne : (c :: rest).takeWhile crlfByte ≠ [] := by
          rw [htw]; simp
        have hcr : charRun (c :: rest) n
            = ((c :: rest).takeWhile crlfByte ++ (charRun ((c :: rest).dropWhile crlfByte) 0).1,
              (charRun ((c :: rest).dropWhile crlfByte) 0).2) := by
          conv_lhs => rw [← hsplit]
          exact charRun_crlfRun _ _ n htwne htwall
        rw [hcr]
        simp only [wrap72Write, hc, if_pos]
        rw [hdw, hih]
      · have hi1 : 1 ≤ (c :: rest).findIdx crlfByte := by
          rw [List.findIdx_cons]
          simp [hc]
        by_cases h70 : 70 ≤ n
        · have hn70 : n = 70 := by omega
          subst hn70
          set i := min ((c :: rest).findIdx crlfByte) 69 with hidef
          have hi : 1 ≤ i := le_min hi1 (by omega)
          have hi69 : i ≤ 69 := min_le_right _ _
          have htake : (c :: rest).take i = c :: rest.take (i - 1) := by
            conv_lhs => rw [show i = (i - 1) + 1 by omega, List.take_succ_cons]
          have hdrop : (c :: rest).drop i = rest.drop (i - 1) := by
            conv_lhs => rw [show i = (i - 1) + 1 by omega, List.drop_succ_cons]
          have hdroplen : (rest.drop (i - 1)).length ≤ N := by
            have := List.length_drop (i - 1) rest
            omega
          have hfree : ∀ d ∈ rest.take (i - 1), crlfByte d = false := by
            intro d hd
            refine take_findIdx_false crlfByte rest (i - 1) ?_ d hd
            have : i ≤ (c :: rest).findIdx crlfByte := min_le_left _ _
            rw [List.findIdx_cons] at this
            simp only [hc, cond_false] at this
            omega
          have hstep : w72step c 70 = (['\r', '\n', ' ', c], 2) := by
            simp [w72step, hc]
          have hcontent := charRun_content (rest.take (i - 1)) (rest.drop (i - 1)) 2 hfree
            (by
              have h1 : (rest.take (i - 1)).length ≤ i - 1 := by
                simp
              omega)
          have hih := ih (rest.drop (i - 1)) hdroplen (1 + i) (by omega)
          rw [charRun_cons, hstep]
          simp only [wrap72Write, hc, Bool.false_eq_true, if_false, le_refl, if_pos, ← hidef]
          rw [htake, hdrop, hih]
          conv_rhs =>
            rw [show rest = rest.take (i - 1) ++ rest.drop (i - 1) from
              (List.take_append_drop _ _).symm]
          rw [hcontent]
          have hlentake : (rest.take (i - 1)).length = i - 1 := by
            refine List.length_take_of_le ?_
            have h2 : i ≤ rest.length + 1 := by
              have := @List.findIdx_le_length _ crlfByte (c :: rest)
              have h3 : i ≤ (c :: rest).findIdx crlfByte := min_le_left _ _
              simpa using le_trans h3 this
            omega
          rw [show 2 + (rest.take (i - 1)).length = 1 + i by omega]
          simp
        · set i := min ((c :: rest).findIdx crlfByte) (70 - n) with hidef
          have hi : 1 ≤ i := le_min hi1 (by omega)
          have hile : i ≤ 70 - n := min_le_right _ _
          have hfree : ∀ d ∈ (c :: rest).take i, crlfByte d = false := by
            intro d hd
            exact take_findIdx_false crlfByte (c :: rest) i (min_le_left _ _) d hd
          have hcontent := charRun_content ((c :: rest).take i) ((c :: rest).drop i) n hfree
            (by
              have h1 : ((c :: rest).take i).length ≤ i := by
                simp
              omega)
          have hdroplen : ((c :: rest).drop i).length ≤ N := by
            have := List.length_drop i (c :: rest)
            simp only [List.length_cons] at this
            omega
          have hih := ih ((c :: rest).drop i) hdroplen (n + i)
            (by omega)
          have hlentake : ((c :: rest).take i).length = i := by
            refine List.length_take_of_le ?_
            have h2 : i ≤ rest.length + 1 := by
              have := @List.findIdx_le_length _ crlfByte (c :: rest)
              have h3 : i ≤ (c :: rest).findIdx crlfByte := min_le_left _ _
              simpa using le_trans h3 this
            simpa using h2
          conv_lhs =>
            simp only [wrap72Write, hc, Bool.false_eq_true, if_false, h70, ← hidef]
          rw [hih]
          conv_rhs =>
            rw [show c :: rest = (c :: rest).take i ++ (c :: rest).drop i from
              (List.take_append_drop _ _).symm]
          rw [hcontent, hlentake]

theorem wrap72Write_eq_charRun (buf : Bytes) (n : Nat) (hn : n ≤ 70) :
    wrap72Write buf n = charRun buf n :=
  wrap72Write_eq_charRun_aux buf.length buf le_rfl n hn

theorem charRun_noCRLF (m : Bytes) (n : Nat) (hm : ∀ c ∈ m, crlfByte c = false) :
    charRun m n = (wrapAt m n, wrapAtN m n) := by
  induction m generalizing n with
  | nil => rfl
  | cons c m ih =>
    have hc := hm c (by simp)
    have ih2 := fun k => ih k (fun d hd => hm d (by simp [hd]))
    by_cases h70 : n = 70
    · subst h70
      rw [charRun_cons]
      simp [w72step, hc, wrapAt, wrapAtN, ih2]
    · rw [charRun_cons]
      simp [w72step, hc, h70, wrapAt, wrapAtN, ih2]

theorem physSplit_crlf (s : Bytes) : physSplit ('\r' :: '\n' :: s) = [] :: physSplit s := by
  simp [physSplit]

theorem physSplit_cons_noCRLF (c : Char) (s : Bytes) (hc : crlfByte c = false) :
    physSplit (c :: s) = consHead c (physSplit s) := by
  have hr : ¬(c = '\r') := by
    simp [crlfByte] at hc
    exact hc.1
  match s with
  | [] => simp [physSplit, consHead]
  | d :: s2 => simp [physSplit, hr]

theorem physSplit_ne_nil (s : Bytes) : physSplit s ≠ [] := by
  match s with
  | [] => simp [physSplit]
  | [c] => simp [physSplit]
  | c :: d :: s2 =>
    rw [physSplit]
    split
    · simp
    · cases h : physSplit (d :: s2) <;> simp [consHead]

theorem consHead_append (c : Char) (a b : List Bytes) (ha : a ≠ []) :
    consHead c (a ++ b) = consHead c a ++ b := by
  cases a with
  | nil => exact absurd rfl ha
  | cons l ls => simp [consHead]

theorem physSplit_noCRLF (l : Bytes) (hl : ∀ c ∈ l, crlfByte c = false) :
    physSplit l = [l] := by
  induction l with
  | nil => simp [physSplit]
  | cons c l ih =>
    rw [physSplit_cons_noCRLF c l (hl c (by simp)), ih (fun d hd => hl d (by simp [hd]))]
    simp [consHead]

theorem physSplit_line (l s : Bytes) (hl : ∀ c ∈ l, crlfByte c = false) :
    physSplit (l ++ '\r' :: '\n' :: s) = l :: physSplit s := by
  induction l with
  | nil => simpa using physSplit_crlf s
  | cons c l ih =>
    rw [List.cons_append, physSplit_cons_noCRLF c _ (hl c (by simp)),
      ih (fun d hd => hl d (by simp [hd]))]
    simp [consHead]

theorem chunkLinesAt_ne_nil (m : Bytes) (n : Nat) : chunkLinesAt m n ≠ [] := by
  match m with
  | [] => simp [chunkLinesAt]
  | c :: m =>
    rw [chunkLinesAt]
    split
    · simp
    · cases h : chunkLinesAt m (n + 1) <;> simp [consHead]

theorem physSplit_wrapAt_term (m s : Bytes) (n : Nat)
    (hm : ∀ c ∈ m, crlfByte c = false) :
    physSplit (wrapAt m n ++ '\r' :: '\n' :: s) = chunkLinesAt m n ++ physSplit s := by
  induction m generalizing n with
  | nil => simpa [wrapAt, chunkLinesAt] using physSplit_crlf s
  | cons c m ih =>
    have hc := hm c (by simp)
    have ih2 := fun k => ih k (fun d hd => hm d (by simp [hd]))
    by_cases h70 : n = 70
    · subst h70
      rw [wrapAt, if_pos rfl, chunkLinesAt, if_pos rfl]
      rw [List.cons_append, List.cons_append, physSplit_crlf]
      rw [List.cons_append, physSplit_cons_noCRLF ' ' _ (by simp [crlfByte]),
        List.cons_append, physSplit_cons_noCRLF c _ hc, ih2 2]
      rw [consHead_append c _ _ (chunkLinesAt_ne_nil m 2)]
      rw [consHead_append ' ' _ _ (by
        cases h : chunkLinesAt m 2 with
        | nil => exact absurd h (chunkLinesAt_ne_nil m 2)
        | cons l ls => simp [consHead])]
      simp
    · rw [wrapAt, if_neg h70, chunkLinesAt, if_neg h70]
      rw [List.cons_append, physSplit_cons_noCRLF c _ hc, ih2 (n + 1)]
      rw [consHead_append c _ _ (chunkLinesAt_ne_nil m (n + 1))]

theorem physSplit_wrapAt (m : Bytes) (n : Nat) (hm : ∀ c ∈ m, crlfByte c = false) :
    physSplit (wrapAt m n) = chunkLinesAt m n := by
  induction m generalizing n with
  | nil => simp [wrapAt, chunkLinesAt, physSplit]
  | cons c m ih =>
    have hc := hm c (by simp)
    have ih2 := fun k => ih k (fun d hd => hm d (by simp [hd]))
    by_cases h70 : n = 70
    · subst h70
      rw [wrapAt, if_pos rfl, chunkLinesAt, if_pos rfl]
      rw [physSplit_crlf, physSplit_cons_noCRLF ' ' _ (by simp [crlfByte]),
        physSplit_cons_noCRLF c _ hc, ih2 2]
    · rw [wrapAt, if_neg h70, chunkLinesAt, if_neg h70]
      rw [physSplit_cons_noCRLF c _ hc, ih2 (n + 1)]

theorem chunkLinesAt_bounds (m : Bytes) (n : Nat) (hn : n ≤ 70) :
    ((chunkLinesAt m n).headD []).length + n ≤ 70 ∧
      ∀ p ∈ (chunkLinesAt m n).tail,
        1 ≤ p.length ∧ p.length ≤ 70 ∧ p.head? = some ' ' := by
  induction m generalizing n with
  | nil =>
    simp [chunkLinesAt]
    omega
  | cons c m ih =>
    by_cases h70 : n = 70
    · subst h70
      rw [chunkLinesAt, if_pos rfl]
      obtain ⟨h1, h2⟩ := ih (2) (by omega)
      cases h : chunkLinesAt m 2 with
      | nil => exact absurd h (chunkLinesAt_ne_nil m 2)
      | cons l ls =>
        rw [h] at h1 h2
        simp only [List.headD_cons] at h1
        refine ⟨by simp, ?_⟩
        intro p hp
        simp only [consHead, List.tail_cons] at hp
        rcases List.mem_cons.1 hp with rfl | hp
        · refine ⟨by simp, by simp; omega, by simp⟩
        · exact h2 p hp
    · rw [chunkLinesAt, if_neg h70]
      obtain ⟨h1, h2⟩ := ih (n + 1) (by omega)
      cases h : chunkLinesAt m (n + 1) with
      | nil => exact absurd h (chunkLinesAt_ne_nil m (n + 1))
      | cons l ls =>
        rw [h] at h1 h2
        simp only [List.headD_cons] at h1
        refine ⟨by simp [consHead]; omega, ?_⟩
        intro p hp
        simp only [consHead, List.tail_cons] at hp
        exact h2 p hp

theorem chunkLinesAt_reconstruct (m : Bytes) (n : Nat) :
    ((chunkLinesAt m n).headD []) ++
      (((chunkLinesAt m n).tail).map (List.drop 1)).flatten = m := by
  induction m generalizing n with
  | nil => simp [chunkLinesAt]
  | cons c m ih =>
    by_cases h70 : n = 70
    · subst h70
      rw [chunkLinesAt, if_pos rfl]
      have ih2 := ih (2)
      cases h : chunkLinesAt m 2 with
      | nil => exact absurd h (chunkLinesAt_ne_nil m 2)
      | cons l ls =>
        rw [h] at ih2
        simp only [List.headD_cons, List.tail_cons] at ih2
        simp [consHead, ih2]
    · rw [chunkLinesAt, if_neg h70]
      have ih2 := ih (n + 1)
      cases h : chunkLinesAt m (n + 1) with
      | nil => exact absurd h (chunkLinesAt_ne_nil m (n + 1))
      | cons l ls =>
        rw [h] at ih2
        simp only [List.headD_cons, List.tail_cons] at ih2
        simp [consHead, ih2]

theorem charRun_line (l s : Bytes) (hl : ∀ c ∈ l, crlfByte c = false) :
    charRun (l ++ '\r' :: '\n' :: s) 0 =
      (wrapAt l 0 ++ '\r' :: '\n' :: (charRun s 0).1, (charRun s 0).2) := by
  have h1 := charRun_append l ('\r' :: '\n' :: s) 0
  rw [charRun_noCRLF l 0 hl] at h1
  have h2 := charRun_crlfRun ['\r', '\n'] s (wrapAtN l 0) (by simp)
    (by
      intro c hc
      rcases List.mem_cons.1 hc with rfl | hc
      · simp [crlfByte]
      · simp at hc
        subst hc
        simp [crlfByte])
  simp only [List.cons_append, List.nil_append] at h2
  rw [h1, h2]

theorem charRun_wrapAt_id (m t : Bytes) (n : Nat)
    (hm : ∀ c ∈ m, crlfByte c = false) (hn : n ≤ 70) :
    charRun (wrapAt m n ++ t) n =
      (wrapAt m n ++ (charRun t (wrapAtN m n)).1, (charRun t (wrapAtN m n)).2) := by
  induction m generalizing n with
  | nil => simp [wrapAt, wrapAtN]
  | cons c m ih =>
    have hc := hm c (by simp)
    have ih2 := fun k hk => ih k (fun d hd => hm d (by simp [hd])) hk
    by_cases h70 : n = 70
    · subst h70
      rw [wrapAt, if_pos rfl, wrapAtN, if_pos rfl]
      have s1 : w72step '\r' 70 = (['\r'], 0) := by simp [w72step, crlfByte]
      have s2 : w72step '\n' 0 = (['\n'], 0) := by simp [w72step, crlfByte]
      have s3 : w72step ' ' 0 = ([' '], 1) := by simp [w72step, crlfByte]
      have s4 : w72step c 1 = ([c], 2) := by simp [w72step, hc]
      rw [List.cons_append, List.cons_append, List.cons_append, List.cons_append,
        charRun_cons, s1, charRun_cons, s2, charRun_cons, s3, charRun_cons, s4,
        ih2 2 (by omega)]
      simp
    · rw [wrapAt, if_neg h70, wrapAtN, if_neg h70]
      have s4 : w72step c n = ([c], n + 1) := by simp [w72step, hc, h70]
      rw [List.cons_append, charRun_cons, s4, ih2 (n + 1) (by omega)]
      simp

theorem charRun_wrapDoc_id (ls : List Bytes) (t : Bytes)
    (hls : ∀ l ∈ ls, ∀ c ∈ l, crlfByte c = false) :
    charRun (wrapDoc ls ++ t) 0 = (wrapDoc ls ++ (charRun t 0).1, (charRun t 0).2) := by
  induction ls with
  | nil => simp [wrapDoc]
  | cons l ls ih =>
    have hl := hls l (by simp)
    have ih2 := ih (fun l2 h2 => hls l2 (by simp [h2]))
    have hdoc : wrapDoc (l :: ls) = wrapAt l 0 ++ ('\r' :: '\n' :: wrapDoc ls) := by
      simp [wrapDoc, wrapLineCRLF, CRLF]
    rw [hdoc, List.append_assoc]
    rw [charRun_wrapAt_id l _ 0 hl (by omega)]
    simp only [List.cons_append]
    have h2 := charRun_crlfRun ['\r', '\n'] (wrapDoc ls ++ t) (wrapAtN l 0) (by simp)
      (by
        intro c hc
        rcases List.mem_cons.1 hc with rfl | hc
        · simp [crlfByte]
        · simp at hc
          subst hc
          simp [crlfByte])
    simp only [List.cons_append, List.nil_append] at h2
    rw [h2, ih2]
    simp

theorem charRun_joinCRLF (ls : List Bytes) (t : Bytes)
    (hls : ∀ l ∈ ls, ∀ c ∈ l, crlfByte c = false) :
    charRun ((ls.map (fun l => l ++ CRLF)).flatten ++ t) 0 =
      (wrapDoc ls ++ (charRun t 0).1, (charRun t 0).2) := by
  induction ls with
  | nil => simp [wrapDoc]
  | cons l ls ih =>
    have hl := hls l (by simp)
    have ih2 := ih (fun l2 h2 => hls l2 (by simp [h2]))
    have hflat : ((l :: ls).map (fun l => l ++ CRLF)).flatten ++ t
        = l ++ '\r' :: '\n' :: ((ls.map (fun l => l ++ CRLF)).flatten ++ t) := by
      simp [CRLF]
    rw [hflat, charRun_line l _ hl, ih2]
    simp [wrapDoc, wrapLineCRLF, CRLF]

theorem crlfPaired_decomp (s : Bytes) (hs : crlfPairedB s = true) :
    (∀ c ∈ s, crlfByte c = false) ∨
      ∃ l s2, s = l ++ '\r' :: '\n' :: s2 ∧ (∀ c ∈ l, crlfByte c = false) ∧
        crlfPairedB s2 = true := by
  match s with
  | [] => exact Or.inl (by simp)
  | [c] =>
    rw [crlfPairedB] at hs
    exact Or.inl (by simpa using hs)
  | c :: d :: s2 =>
    rw [crlfPairedB] at hs
    by_cases hp : c = '\r' ∧ d = '\n'
    · right
      exact ⟨[], s2, by simp [hp.1, hp.2], by simp, by simpa [hp] using hs⟩
    · rw [if_neg hp, Bool.and_eq_true] at hs
      have hcnot : crlfByte c = false := by simpa using hs.1
      rcases crlfPaired_decomp (d :: s2) hs.2 with h | ⟨l, s3, heq, hl, hs3⟩
      · left
        intro e he
        rcases List.mem_cons.1 he with rfl | he
        · exact hcnot
        · exact h e he
      · right
        refine ⟨c :: l, s3, by rw [List.cons_append, ← heq], ?_, hs3⟩
        intro e he
        rcases List.mem_cons.1 he with rfl | he
        · exact hcnot
        · exact hl e he

theorem crlfPaired_pieces (N : Nat) :
    ∀ s : Bytes, s.length ≤ N → crlfPairedB s = true →
      ∀ p ∈ physSplit s, ∀ c ∈ p, crlfByte c = false := by
  induction N with
  | zero =>
    intro s hlen _
    have : s = [] := List.eq_nil_of_length_eq_zero (Nat.le_zero.1 hlen)
    subst this
    simp [physSplit]
  | succ N ih =>
    intro s hlen hs
    rcases crlfPaired_decomp s hs with h | ⟨l, s2, heq, hl, hs2⟩
    · rw [physSplit_noCRLF s h]
      simpa using h
    · subst heq
      rw [physSplit_line l s2 hl]
      intro p hp
      rcases List.mem_cons.1 hp with rfl | hp
      · exact hl
      · have hs2len : s2.length ≤ N := by
          have := List.length_append l ('\r' :: '\n' :: s2)
          simp only [List.length_cons] at this hlen
          omega
        exact ih s2 hs2len hs2 p hp

theorem charRun_paired_split (N : Nat) :
    ∀ s : Bytes, s.length ≤ N → crlfPairedB s = true →
      physSplit (charRun s 0).1 = (physSplit s).flatMap (fun l => chunkLinesAt l 0) := by
  induction N with
  | zero =>
    intro s hlen _
    have : s = [] := List.eq_nil_of_length_eq_zero (Nat.le_zero.1 hlen)
    subst this
    simp [charRun, physSplit, chunkLinesAt]
  | succ N ih =>
    intro s hlen hs
    rcases crlfPaired_decomp s hs with h | ⟨l, s2, heq, hl, hs2⟩
    · rw [charRun_noCRLF s 0 h, physSplit_noCRLF s h]
      simp [physSplit_wrapAt s 0 h]
    · subst heq
      rw [charRun_line l s2 hl, physSplit_line l s2 hl]
      have hs2len : s2.length ≤ N := by
        have := List.length_append l ('\r' :: '\n' :: s2)
        simp only [List.length_cons] at this hlen
        omega
      have hmain := physSplit_wrapAt_term l (charRun s2 0).1 0 hl
      simp only [List.append_assoc] at hmain ⊢
      rw [hmain, ih s2 hs2len hs2]
      simp

theorem feedAll_go (chunks : List Bytes) (o : Bytes) (n : Nat) :
    chunks.foldl
        (fun acc chunk => (acc.1 ++ (wrap72Write chunk acc.2).1, (wrap72Write chunk acc.2).2))
        (o, n)
      = (o ++ (feedAll chunks n).1, (feedAll chunks n).2) := by
  induction chunks generalizing o n with
  | nil => simp [feedAll]
  | cons c cs ih =>
    rw [feedAll, List.foldl_cons, List.foldl_cons]
    simp only [List.nil_append]
    rw [ih, ih ((wrap72Write c n).1)]
    simp

theorem feedAll_eq_charRun (chunks : List Bytes) (n : Nat) (hn : n ≤ 70) :
    feedAll chunks n = charRun chunks.flatten n := by
  induction chunks generalizing n with
  | nil => simp [feedAll, charRun]
  | cons c cs ih =>
    rw [feedAll, List.foldl_cons]
    simp only [List.nil_append]
    rw [feedAll_go]
    have h1 : wrap72Write c n = charRun c n := wrap72Write_eq_charRun c n hn
    have h2 : (charRun c n).2 ≤ 70 := charRun_state_le c n hn
    rw [List.flatten_cons, charRun_append, h1, ih _ h2]

/-- C3 (counterexample): the claim quantifies over every input byte
sequence, but for an input containing a lone LF the transform's output has a
`"\r\n"`-delimited physical line of 74 bytes (76 with its terminator),
exceeding 72: the counter resets at the lone LF although no `"\r\n"`
terminator was emitted. -/
theorem c3_counterexample :
    ∃ p ∈ physSplit (feedAll [c3CounterInput] 0).1, 72 < p.length := by
  rw [feedAll_eq_charRun _ 0 (by omega)]
  decide

/-- C3 (amended): for every input whose CR and LF bytes occur only as
`"\r\n"` pairs, and every way of chunking it into successive `Write` calls
on a single `wrap72` instance: the concatenated output is that of a single
call on the whole input; every `"\r\n"`-delimited physical line of the
output, including the two terminator bytes, is at most 72 bytes; and each
logical line is emitted as an up-to-70-byte first physical line followed by
continuation lines carrying exactly one inserted leading space plus up to 69
further content bytes, which reconstruct the logical line with no other
characters altered. -/
theorem c3_wrap_invariant (chunks : List Bytes)
    (hpaired : crlfPairedB chunks.flatten = true) :
    feedAll chunks 0 = wrap72Write chunks.flatten 0 ∧
    physSplit (feedAll chunks 0).1
      = (physSplit chunks.flatten).flatMap (fun l => chunkLinesAt l 0) ∧
    (∀ p ∈ physSplit (feedAll chunks 0).1, p.length + 2 ≤ 72) ∧
    (∀ l ∈ physSplit chunks.flatten,
      ((chunkLinesAt l 0).headD []).length ≤ 70 ∧
      (∀ p ∈ (chunkLinesAt l 0).tail,
        p.head? = some ' ' ∧ 1 ≤ p.length ∧ p.length ≤ 70) ∧
      (chunkLinesAt l 0).headD [] ++
        (((chunkLinesAt l 0).tail).map (List.drop 1)).flatten = l) := by
  have h0 : feedAll chunks 0 = charRun chunks.flatten 0 :=
    feedAll_eq_charRun chunks 0 (by omega)
  have h1 : feedAll chunks 0 = wrap72Write chunks.flatten 0 := by
    rw [h0, wrap72Write_eq_charRun _ 0 (by omega)]
  have h2 : physSplit (feedAll chunks 0).1
      = (physSplit chunks.flatten).flatMap (fun l => chunkLinesAt l 0) := by
    rw [h0]
    exact charRun_paired_split chunks.flatten.length chunks.flatten le_rfl hpaired
  refine ⟨h1, h2, ?_, ?_⟩
  · intro p hp
    rw [h2] at hp
    rcases List.mem_flatMap.1 hp with ⟨l, hl, hpl⟩
    obtain ⟨hhead, htail⟩ := chunkLinesAt_bounds l 0 (by omega)
    have hsplit : p = (chunkLinesAt l 0).headD [] ∨ p ∈ (chunkLinesAt l 0).tail := by
      cases h : chunkLinesAt l 0 with
      | nil => exact absurd h (chunkLinesAt_ne_nil l 0)
      | cons q qs =>
        rw [h] at hpl
        rcases List.mem_cons.1 hpl with rfl | hpl
        · exact Or.inl (by simp [h])
        · exact Or.inr (by simp [h, hpl])
    rcases hsplit with heq | hp2
    · rw [heq]
      omega
    · have := (htail p hp2).2.1
      omega
  · intro l hl
    obtain ⟨hhead, htail⟩ := chunkLinesAt_bounds l 0 (by omega)
    refine ⟨by omega, ?_, chunkLinesAt_reconstruct l 0⟩
    intro p hp
    obtain ⟨a, b, c⟩ := htail p hp
    exact ⟨c, a, b⟩

/-- Witness for the amended wrap invariant at a concrete chunking. -/
theorem c3_wrap_invariant_witness :
    crlfPairedB (List.flatten [['a', 'b'], ['c', '\r'], ['\n', 'd']]) = true ∧
    (feedAll [['a', 'b'], ['c', '\r'], ['\n', 'd']] 0
        = wrap72Write (List.flatten [['a', 'b'], ['c', '\r'], ['\n', 'd']]) 0 ∧
      physSplit (feedAll [['a', 'b'], ['c', '\r'], ['\n', 'd']] 0).1
        = (physSplit (List.flatten [['a', 'b'], ['c', '\r'], ['\n', 'd']])).flatMap
            (fun l => chunkLinesAt l 0) ∧
      (∀ p ∈ physSplit (feedAll [['a', 'b'], ['c', '\r'], ['\n', 'd']] 0).1,
        p.length + 2 ≤ 72) ∧
      (∀ l ∈ physSplit (List.flatten [['a', 'b'], ['c', '\r'], ['\n', 'd']]),
        ((chunkLinesAt l 0).headD []).length ≤ 70 ∧
        (∀ p ∈ (chunkLinesAt l 0).tail,
          p.head? = some ' ' ∧ 1 ≤ p.length ∧ p.length ≤ 70) ∧
        (chunkLinesAt l 0).headD [] ++
          (((chunkLinesAt l 0).tail).map (List.drop 1)).flatten = l)) :=
  ⟨by decide, c3_wrap_invariant [['a', 'b'], ['c', '\r'], ['\n', 'd']] (by decide)⟩

theorem globStar_iff (stem tl name : Bytes) :
    globStar stem tl name = true ↔
      ∃ mid, (∀ c ∈ mid, c ≠ '/') ∧ name = stem ++ mid ++ tl := by
  constructor
  · intro h
    rw [globStar, Bool.and_eq_true, Bool.and_eq_true, Bool.and_eq_true] at h
    obtain ⟨hstem, hlen, hsuf, hall⟩ := h
    rw [List.isPrefixOf_iff_prefix, List.prefix_iff_eq_take] at hstem
    rw [List.isSuffixOf_iff_suffix, List.suffix_iff_eq_drop] at hsuf
    simp only [decide_eq_true_eq] at hlen
    refine ⟨(name.drop stem.length).take ((name.drop stem.length).length - tl.length), ?_, ?_⟩
    · intro c hc
      have := List.all_eq_true.1 hall c hc
      simpa using this
    · have h1 : stem ++ name.drop stem.length = name := by
        conv_rhs => rw [← List.take_append_drop stem.length name]
        rw [← hstem]
      have h2 : (name.drop stem.length).take ((name.drop stem.length).length - tl.length)
          ++ tl = name.drop stem.length := by
        conv_rhs =>
          rw [← List.take_append_drop ((name.drop stem.length).length - tl.length)
            (name.drop stem.length)]
        rw [← hsuf]
      rw [List.append_assoc, h2, h1]
  · rintro ⟨mid, hmid, rfl⟩
    rw [globStar, Bool.and_eq_true, Bool.and_eq_true, Bool.and_eq_true]
    have hdrop : (stem ++ mid ++ tl).drop stem.length = mid ++ tl := by
      rw [List.append_assoc]
      exact List.drop_left _ _
    refine ⟨?_, ?_, ?_, ?_⟩
    · rw [List.isPrefixOf_iff_prefix, List.append_assoc]
      exact List.prefix_append _ _
    · rw [hdrop]
      simp
    · rw [List.isSuffixOf_iff_suffix, hdrop]
      exact List.suffix_append _ _
    · rw [hdrop]
      have htake : (mid ++ tl).take ((mid ++ tl).length - tl.length) = mid := by
        rw [show (mid ++ tl).length - tl.length = mid.length by simp]
        exact List.take_left _ _
      rw [htake]
      rw [List.all_eq_true]
      intro c hc
      simpa using hmid c hc

/-- C7: the Exclusion Policy accepts exactly the fixed manifest path and the
five glob families, case-sensitively; in particular it accepts the five
sample metadata names and rejects the two sample content names. -/
theorem c7_exclusion_policy :
    (∀ name : Bytes,
      isSpecialIgnored name = true ↔
        (name = "META-INF/MANIFEST.MF".data ∨
          (∃ mid, (∀ c ∈ mid, c ≠ '/') ∧ name = "META-INF/".data ++ mid ++ ".SF".data) ∨
          (∃ mid, (∀ c ∈ mid, c ≠ '/') ∧ name = "META-INF/".data ++ mid ++ ".RSA".data) ∨
          (∃ mid, (∀ c ∈ mid, c ≠ '/') ∧ name = "META-INF/".data ++ mid ++ ".DSA".data) ∨
          (∃ mid, (∀ c ∈ mid, c ≠ '/') ∧ name = "META-INF/".data ++ mid ++ ".EC".data) ∨
          (∃ mid, (∀ c ∈ mid, c ≠ '/') ∧ name = "META-INF/SIG-".data ++ mid))) ∧
    isSpecialIgnored "META-INF/MANIFEST.MF".data = true ∧
    isSpecialIgnored "META-INF/CERT.SF".data = true ∧
    isSpecialIgnored "META-INF/CERT.RSA".data = true ∧
    isSpecialIgnored "META-INF/FOO.SF".data = true ∧
    isSpecialIgnored "META-INF/SIG-BAR".data = true ∧
    isSpecialIgnored "META-INF/other.txt".data = false ∧
    isSpecialIgnored "assets/x.png".data = false := by
  refine ⟨?_, by decide, by decide, by decide, by decide, by decide, by decide, by decide⟩
  intro name
  rw [isSpecialIgnored]
  by_cases hpre : "META-INF/".data.isPrefixOf name = true
  · rw [if_pos hpre]
    simp only [Bool.or_eq_true, decide_eq_true_eq, globStar_iff, List.append_nil, or_assoc]
  · rw [if_neg hpre]
    constructor
    · intro h
      exact absurd h (by simp)
    · intro h
      exfalso
      apply hpre
      rw [List.isPrefixOf_iff_prefix]
      rcases h with rfl | ⟨mid, _, rfl⟩ | ⟨mid, _, rfl⟩ | ⟨mid, _, rfl⟩
        | ⟨mid, _, rfl⟩ | ⟨mid, _, rfl⟩
      · decide
      · rw [List.append_assoc]
        exact List.prefix_append _ _
      · rw [List.append_assoc]
        exact List.prefix_append _ _
      · rw [List.append_assoc]
        exact List.prefix_append _ _
      · rw [List.append_assoc]
        exact List.prefix_append _ _
      · exact List.IsPrefix.trans (by decide) (List.prefix_append _ _)

theorem rawSplit_ne_nil (s : Bytes) : rawSplit s ≠ [] := by
  match s with
  | [] => simp [rawSplit]
  | c :: s2 =>
    rw [rawSplit]
    split
    · simp
    · cases h : rawSplit s2 <;> simp [consHead]

theorem glueCR_cons (a a2 : Bytes) (as : List Bytes) (B : List Bytes) :
    glueCR (a :: a2 :: as) B = a :: glueCR (a2 :: as) B := by
  rw [glueCR, glueCR]
  simp [List.getLastD_cons]

theorem consHead_glueCR (c : Char) (A B : List Bytes) (hA : A ≠ []) :
    consHead c (glueCR A B) = glueCR (consHead c A) B := by
  match A with
  | [a] => simp [glueCR, consHead]
  | a :: a2 :: as =>
    rw [glueCR_cons, show consHead c (a :: a2 :: as) = (c :: a) :: a2 :: as from rfl,
      glueCR_cons]
    rfl

theorem rawSplit_crlf_append (x y : Bytes) :
    rawSplit (x ++ '\r' :: '\n' :: y) = glueCR (rawSplit x) (rawSplit y) := by
  induction x with
  | nil => simp [rawSplit, consHead, glueCR]
  | cons c x ih =>
    by_cases hc : c = '\n'
    · subst hc
      have hL : rawSplit ('\n' :: (x ++ '\r' :: '\n' :: y))
          = [] :: rawSplit (x ++ '\r' :: '\n' :: y) := by
        rw [rawSplit, if_pos rfl]
      rw [List.cons_append, hL, ih, rawSplit, if_pos rfl]
      cases h : rawSplit x with
      | nil => exact absurd h (rawSplit_ne_nil x)
      | cons l ls => rw [glueCR_cons]
    · have hL : rawSplit (c :: (x ++ '\r' :: '\n' :: y))
          = consHead c (rawSplit (x ++ '\r' :: '\n' :: y)) := by
        rw [rawSplit, if_neg hc]
      rw [List.cons_append, hL, ih, rawSplit, if_neg hc]
      exact consHead_glueCR c _ _ (rawSplit_ne_nil x)

theorem rawSplit_noLF (l : Bytes) (hl : ∀ c ∈ l, c ≠ '\n') : rawSplit l = [l] := by
  induction l with
  | nil => simp [rawSplit]
  | cons c l ih =>
    rw [rawSplit, if_neg (hl c (by simp)), ih (fun d hd => hl d (by simp [hd]))]
    simp [consHead]

theorem dropCR_concat_cr (l : Bytes) : dropCR (l ++ ['\r']) = l := by
  rw [dropCR, if_pos (by simp), List.dropLast_concat]

theorem mfLines_line (l rest : Bytes) (hl : ∀ c ∈ l, crlfByte c = false) :
    mfLines (l ++ '\r' :: '\n' :: rest) = l :: mfLines rest := by
  rw [mfLines, mfLines, List.append_assoc]
  have hnolf : ∀ c ∈ l, c ≠ '\n' := by
    intro c hc
    have := hl c hc
    simp [crlfByte] at this
    exact this.2
  simp only [List.cons_append]
  rw [rawSplit_crlf_append, rawSplit_noLF l hnolf]
  rw [show glueCR [l] (rawSplit (rest ++ '\r' :: '\n' :: '\r' :: ['\n']))
      = (l ++ ['\r']) :: rawSplit (rest ++ '\r' :: '\n' :: '\r' :: ['\n']) from by
        simp [glueCR]]
  rw [List.dropLast_cons_of_ne_nil (rawSplit_ne_nil _), List.map_cons, dropCR_concat_cr]

theorem mfLines_append_term (input : Bytes) :
    mfLines (input ++ '\r' :: '\n' :: '\r' :: ['\n']) = mfLines input ++ [[], []] := by
  rw [mfLines, mfLines, List.append_assoc]
  simp only [List.cons_append, List.nil_append]
  rw [rawSplit_crlf_append, rawSplit_crlf_append]
  rw [show rawSplit ('\r' :: '\n' :: '\r' :: '\n' :: '\r' :: ['\n'])
      = [['\r'], ['\r'], ['\r'], []] from by decide]
  rw [show rawSplit ('\r' :: ['\n']) = [['\r'], []] from by decide]
  rw [glueCR, glueCR]
  rw [show ((rawSplit input).dropLast
        ++ ((rawSplit input).getLastD [] ++ ['\r']) :: [['\r'], ['\r'], ['\r'], []])
      = ((rawSplit input).dropLast
        ++ [(rawSplit input).getLastD [] ++ ['\r'], ['\r'], ['\r'], ['\r']]) ++ [[]] from by
        simp]
  rw [show ((rawSplit input).dropLast
        ++ ((rawSplit input).getLastD [] ++ ['\r']) :: [['\r'], []])
      = ((rawSplit input).dropLast
        ++ [(rawSplit input).getLastD [] ++ ['\r'], ['\r']]) ++ [[]] from by simp]
  rw [List.dropLast_concat, List.dropLast_concat]
  simp [dropCR]

/-- C10: `Manifest.WriteTo` is not total — on the empty manifest (for
example the one `ParseManifest` yields on empty input) the index access
`names[0]` after sorting panics, modelled as `none`; on any manifest with
at least one section the write succeeds. -/
theorem c10_writeTo_empty_panics :
    writeTo (ParseManifest []) = none ∧
    ParseManifest [] = [] ∧
    ∀ m : Manifest, m ≠ [] → ∃ bs, writeTo m = some bs := by
  refine ⟨rfl, rfl, ?_⟩
  intro m hm
  cases h : List.insertionSort (fun a b : Bytes => a ≤ b) m.keys with
  | nil =>
    exfalso
    have hperm := (List.perm_insertionSort (fun a b : Bytes => a ≤ b) m.keys).symm
    rw [h] at hperm
    have hkeys : m.keys = [] := hperm.eq_nil
    cases m with
    | nil => exact hm rfl
    | cons p rest => simp [Manifest.keys] at hkeys
  | cons n0 rest =>
    simp only [writeTo, h]
    exact ⟨_, rfl⟩

/-- Witness: the singleton main-section manifest serializes successfully. -/
theorem c10_writeTo_empty_panics_witness :
    ([([], [['A']])] : Manifest) ≠ [] ∧ ∃ bs, writeTo [([], [['A']])] = some bs :=
  ⟨by decide, c10_writeTo_empty_panics.2.2 [([], [['A']])] (by decide)⟩

theorem withoutFirst_spec (pre : Bytes) (as bs : Attributes) (a : Bytes)
    (has : ∀ x ∈ as, ¬(pre.isPrefixOf x = true)) (ha : pre.isPrefixOf a = true) :
    withoutFirst pre (as ++ a :: bs) = as ++ bs := by
  induction as with
  | nil =>
    rw [List.nil_append, withoutFirst, if_pos ha, List.nil_append]
  | cons x as ih =>
    rw [List.cons_append, withoutFirst, if_neg (has x (by simp)),
      ih (fun z hz => has z (by simp [hz])), List.cons_append]

/-- C6: re-signing a retained entry whose old section holds one stale
`SHA1-Digest` line keeps the other attribute lines in order and yields
exactly one digest line, the fresh one; and `Attributes.Without` drops only
the first line whose key prefix matches, preserving the rest. -/
theorem c6_resign_preserves (xs ys : Attributes) (stale d : Bytes)
    (hxs : ∀ a ∈ xs, ¬("SHA1-Digest: ".data.isPrefixOf a = true))
    (hys : ∀ a ∈ ys, ¬("SHA1-Digest: ".data.isPrefixOf a = true))
    (hstale : "SHA1-Digest: ".data.isPrefixOf stale = true) :
    signZipSection (xs ++ stale :: ys) d
        = xs ++ ys ++ ["SHA1-Digest: ".data ++ d] ∧
    ((signZipSection (xs ++ stale :: ys) d).filter
        (fun a => "SHA1-Digest: ".data.isPrefixOf a)).length = 1 ∧
    ∀ (key : Bytes) (as bs : Attributes) (a : Bytes),
      (∀ x ∈ as, ¬((key ++ ": ".data).isPrefixOf x = true)) →
      (key ++ ": ".data).isPrefixOf a = true →
      Attributes.without (as ++ a :: bs) key = as ++ bs := by
  have hkey : "SHA1-Digest".data ++ ": ".data = "SHA1-Digest: ".data := by decide
  have h1 : signZipSection (xs ++ stale :: ys) d
      = xs ++ ys ++ ["SHA1-Digest: ".data ++ d] := by
    rw [signZipSection, Attributes.without, hkey, withoutFirst_spec _ xs ys stale hxs hstale,
      List.append_assoc]
  refine ⟨h1, ?_, ?_⟩
  · rw [h1]
    rw [List.filter_append, List.filter_append]
    rw [List.filter_eq_nil_iff.2 (by intro a ha; simpa using hxs a ha)]
    rw [List.filter_eq_nil_iff.2 (by intro a ha; simpa using hys a ha)]
    simp [List.isPrefixOf_iff_prefix, List.prefix_append]
  · intro key as bs a has ha
    rw [Attributes.without, withoutFirst_spec _ as bs a has ha]

/-- Witness for the re-signing property at a concrete stale section. -/
theorem c6_resign_preserves_witness :
    (∀ a ∈ [" X-Custom: 1".data.drop 1],
      ¬("SHA1-Digest: ".data.isPrefixOf a = true)) ∧
    (∀ a ∈ ([] : Attributes), ¬("SHA1-Digest: ".data.isPrefixOf a = true)) ∧
    "SHA1-Digest: ".data.isPrefixOf "SHA1-Digest: stale".data = true ∧
    (signZipSection ([" X-Custom: 1".data.drop 1] ++ "SHA1-Digest: stale".data :: []) "NEW".data
        = [" X-Custom: 1".data.drop 1] ++ [] ++ ["SHA1-Digest: ".data ++ "NEW".data] ∧
      ((signZipSection ([" X-Custom: 1".data.drop 1]
            ++ "SHA1-Digest: stale".data :: []) "NEW".data).filter
          (fun a => "SHA1-Digest: ".data.isPrefixOf a)).length = 1 ∧
      ∀ (key : Bytes) (as bs : Attributes) (a : Bytes),
        (∀ x ∈ as, ¬((key ++ ": ".data).isPrefixOf x = true)) →
        (key ++ ": ".data).isPrefixOf a = true →
        Attributes.without (as ++ a :: bs) key = as ++ bs) :=
  ⟨by decide, by decide, by decide,
    c6_resign_preserves [" X-Custom: 1".data.drop 1] [] "SHA1-Digest: stale".data "NEW".data
      (by decide) (by decide) (by decide)⟩

theorem parseLine_blank_v (s : PState) : (parseLine s []).v = [] := by
  unfold parseLine
  rw [if_pos rfl]
  by_cases h : 0 < s.v.length
  · rw [if_pos h]
  · rw [if_neg h]
    simp only [not_lt, Nat.le_zero, List.length_eq_zero] at h
    exact h

theorem parseLine_blank_id (s : PState) (hv : s.v = []) : parseLine s [] = s := by
  unfold parseLine
  rw [if_pos rfl, if_neg (by rw [hv]; simp)]

theorem mfLines_ends_blank (input : Bytes) :
    mfLines input
      = (((rawSplit input).dropLast
          ++ [(rawSplit input).getLastD [] ++ ['\r']]).map dropCR) ++ [[]] := by
  rw [mfLines, rawSplit_crlf_append,
    show rawSplit ('\r' :: ['\n']) = [['\r'], []] from by decide, glueCR]
  rw [show (rawSplit input).dropLast
        ++ ((rawSplit input).getLastD [] ++ ['\r']) :: [['\r'], []]
      = ((rawSplit input).dropLast
        ++ [(rawSplit input).getLastD [] ++ ['\r'], ['\r']]) ++ [[]] from by simp]
  rw [List.dropLast_concat]
  simp [dropCR]

theorem parse_append_term (input : Bytes) :
    ParseManifest (input ++ '\r' :: '\n' :: '\r' :: ['\n']) = ParseManifest input := by
  rw [ParseManifest, ParseManifest, mfLines_append_term, mfLines_ends_blank]
  rw [List.foldl_append, List.foldl_append]
  simp only [List.foldl_cons, List.foldl_nil]
  rw [parseLine_blank_id _ (parseLine_blank_v _), parseLine_blank_id _ (parseLine_blank_v _)]

theorem set_values_ne_nil (m : Manifest) (k : Bytes) (v : Attributes)
    (hm : ∀ p ∈ m, p.2 ≠ []) (hv : v ≠ []) : ∀ p ∈ m.set k v, p.2 ≠ [] := by
  induction m with
  | nil => simpa [Manifest.set]
  | cons q rest ih =>
    rw [Manifest.set]
    split
    · intro p hp
      rcases List.mem_cons.1 hp with rfl | hp
      · exact hv
      · exact hm p (by simp [hp])
    · intro p hp
      rcases List.mem_cons.1 hp with rfl | hp
      · exact hm p (by simp)
      · exact ih (fun z hz => hm z (by simp [hz])) p hp

theorem parse_fold_values_ne_nil (lines : List Bytes) (s : PState)
    (hs : ∀ p ∈ s.m, p.2 ≠ []) :
    ∀ p ∈ (lines.foldl parseLine s).m, p.2 ≠ [] := by
  induction lines generalizing s with
  | nil => exact hs
  | cons line rest ih =>
    rw [List.foldl_cons]
    refine ih _ ?_
    rw [parseLine]
    split
    · split
      · rename_i hlen
        exact set_values_ne_nil s.m s.k s.v hs
          (by
            intro hnil
            rw [hnil] at hlen
            simp at hlen)
      · exact hs
    · split
      · exact hs
      · split
        · split
          · exact hs
          · exact hs
        · exact hs

/-- C8: the parser behaves as if blank terminator lines were appended —
appending explicit `"\r\n\r\n"` terminators to any input does not change
the parse (the final in-progress section is flushed either way); a section
with zero attribute lines is never committed, so every section of the
result carries at least one attribute line; a trailing unterminated section
is committed, and a bare `Name:` line yields nothing. -/
theorem c8_parse_termination :
    (∀ input : Bytes,
      ParseManifest (input ++ '\r' :: '\n' :: '\r' :: ['\n']) = ParseManifest input) ∧
    (∀ (input : Bytes) (p : Bytes × Attributes), p ∈ ParseManifest input → p.2 ≠ []) ∧
    ParseManifest "Name: x\r\nA: b".data = [("x".data, ["A: b".data])] ∧
    ParseManifest "Name: x\r\n".data = [] := by
  refine ⟨parse_append_term, ?_, by decide, by decide⟩
  intro input p hp
  exact parse_fold_values_ne_nil (mfLines input) ⟨[], [], []⟩ (by simp) p hp

/-- Witness: a committed section of a concrete parse is non-empty. -/
theorem c8_parse_termination_witness :
    (([], ["A: b".data]) ∈ ParseManifest "A: b\r\n".data) ∧
      ((([], ["A: b".data]) : Bytes × Attributes)).2 ≠ [] :=
  ⟨by decide, c8_parse_termination.2.1 "A: b\r\n".data ([], ["A: b".data]) (by decide)⟩

theorem writeSignatureFile_eq_map (sha1 b64 : Bytes → Bytes) (m : Manifest)
    (sortedFiles : List Bytes) :
    writeSignatureFile sha1 b64 m sortedFiles
      = (manifestArchiveBytes m).map (fun mf =>
          "Signature-Version: 1.0\r\n".data
            ++ "Created-By: 1.0 (Android SignApk)\r\n".data
            ++ "SHA1-Digest-Manifest: ".data ++ b64 (sha1 mf) ++ CRLF ++ CRLF
            ++ (sortedFiles.filter (fun f => !(m.lookup f).isEmpty)).flatMap
                (fun f => "Name: ".data ++ f ++ CRLF
                  ++ "SHA1-Digest: ".data ++ b64 (sha1 (entryDigestFeed m f))
                  ++ CRLF ++ CRLF)) := by
  rw [writeSignatureFile, digestManifestFeed, manifestArchiveBytes]
  cases writeTo m <;> rfl

theorem writeTo_isSome (m : Manifest) (hm : m ≠ []) : ∃ bs, writeTo m = some bs := by
  cases h : List.insertionSort (fun a b : Bytes => a ≤ b) m.keys with
  | nil =>
    exfalso
    have hperm := (List.perm_insertionSort (fun a b : Bytes => a ≤ b) m.keys).symm
    rw [h] at hperm
    have hkeys : m.keys = [] := hperm.eq_nil
    cases m with
    | nil => exact hm rfl
    | cons p rest => simp [Manifest.keys] at hkeys
  | cons n0 rest =>
    simp only [writeTo, h]
    exact ⟨_, rfl⟩

/-- C1: the stream hashed for the `SHA1-Digest-Manifest` attribute equals
the stream written to the archive's `MANIFEST.MF` entry — both sites call
`Manifest.WriteTo` on the same manifest — and `CERT.SF` carries exactly the
base64 SHA-1 of those archive bytes. -/
theorem c1_digest_hashes_written_manifest (sha1 b64 : Bytes → Bytes) (m : Manifest)
    (files : List Bytes) :
    digestManifestFeed m = manifestArchiveBytes m ∧
    writeSignatureFile sha1 b64 m files
      = (manifestArchiveBytes m).map (fun mf =>
          "Signature-Version: 1.0\r\n".data
            ++ "Created-By: 1.0 (Android SignApk)\r\n".data
            ++ "SHA1-Digest-Manifest: ".data ++ b64 (sha1 mf) ++ CRLF ++ CRLF
            ++ (files.filter (fun f => !(m.lookup f).isEmpty)).flatMap
                (fun f => "Name: ".data ++ f ++ CRLF
                  ++ "SHA1-Digest: ".data ++ b64 (sha1 (entryDigestFeed m f))
                  ++ CRLF ++ CRLF)) :=
  ⟨rfl, writeSignatureFile_eq_map sha1 b64 m files⟩

/-- C5 (violation exhibited): `writeSignatureFile` writes `Name:` lines to
CERT.SF directly, without the wrap transform it uses for `MANIFEST.MF`, so
the 67-byte entry name yields a 73-byte physical line (75 bytes with its
CR LF terminator), breaking the claimed 72-byte bound.  The hash and base64
primitives are instantiated with constants; the `Name:` line does not
depend on them. -/
theorem c5_certsf_unwrapped_line :
    ∃ out, writeSignatureFile (fun _ => []) (fun _ => []) c5Manifest [c5Name] = some out ∧
      ("Name: ".data ++ c5Name) ∈ physSplit out ∧
      72 < ("Name: ".data ++ c5Name).length + 2 := by
  obtain ⟨bs, hbs⟩ := writeTo_isSome c5Manifest (by decide)
  have hmap := writeSignatureFile_eq_map (fun _ => []) (fun _ => []) c5Manifest [c5Name]
  rw [show manifestArchiveBytes c5Manifest = some bs from hbs] at hmap
  refine ⟨"Signature-Version: 1.0\r\n".data
      ++ "Created-By: 1.0 (Android SignApk)\r\n".data
      ++ "SHA1-Digest-Manifest: ".data ++ [] ++ CRLF ++ CRLF
      ++ (List.filter (fun f => !List.isEmpty (c5Manifest.lookup f)) [c5Name]).flatMap
          (fun f => "Name: ".data ++ f ++ CRLF
            ++ "SHA1-Digest: ".data ++ [] ++ CRLF ++ CRLF),
    by rw [hmap]; rfl, by decide, by decide⟩

theorem lookup_perm (k : Bytes) :
    ∀ (m1 m2 : Manifest), m1.Perm m2 → (m1.map Prod.fst).Nodup →
      m1.lookup k = m2.lookup k := by
  intro m1 m2 hp
  induction hp with
  | nil => intro _; rfl
  | cons x p ih =>
    intro hnd
    rw [Manifest.lookup, Manifest.lookup]
    split
    · rfl
    · refine ih ?_
      simp only [List.map_cons, List.nodup_cons] at hnd
      exact hnd.2
  | swap x y t =>
    intro hnd
    have hxy : y.1 ≠ x.1 := by
      simp only [List.map_cons, List.nodup_cons, List.mem_cons] at hnd
      exact fun he => hnd.1 (Or.inl he)
    rw [Manifest.lookup, Manifest.lookup, Manifest.lookup, Manifest.lookup]
    by_cases hy : y.1 = k <;> by_cases hx : x.1 = k
    · exact absurd (hy.trans hx.symm) hxy
    · simp [hy, hx]
    · simp [hy, hx]
    · simp [hy, hx]
  | trans p1 p2 ih1 ih2 =>
    intro hnd
    rw [ih1 hnd, ih2 ((p1.map Prod.fst).nodup hnd)]

theorem sorted_nodupkeys_eq {α : Type} (key : α → Bytes) :
    ∀ (l1 l2 : List α), l1.Perm l2 →
      l1.Sorted (fun a b => key a ≤ key b) → l2.Sorted (fun a b => key a ≤ key b) →
      (l1.map key).Nodup → l1 = l2 := by
  intro l1
  induction l1 with
  | nil =>
    intro l2 hp _ _ _
    exact (hp.symm.eq_nil).symm
  | cons a l ih =>
    intro l2 hp hs1 hs2 hnd
    cases l2 with
    | nil => exact hp.eq_nil
    | cons b l2 =>
      have hab : a = b := by
        have ha2 : a ∈ b :: l2 := hp.subset (List.mem_cons_self a l)
        have hb1 : b ∈ a :: l := hp.symm.subset (List.mem_cons_self b l2)
        rcases List.mem_cons.1 ha2 with h | ha2
        · exact h
        rcases List.mem_cons.1 hb1 with h | hb1
        · exact h.symm
        have hk1 : key a ≤ key b := (List.sorted_cons.1 hs1).1 b hb1
        have hk2 : key b ≤ key a := (List.sorted_cons.1 hs2).1 a ha2
        have hk : key a = key b := le_antisymm hk1 hk2
        exfalso
        have hmem : key b ∈ l.map key := List.mem_map_of_mem key hb1
        rw [← hk] at hmem
        simp only [List.map_cons, List.nodup_cons] at hnd
        exact hnd.1 hmem
      subst hab
      have htail := hp.cons_inv
      have h1 := (List.sorted_cons.1 hs1).2
      have h2 := (List.sorted_cons.1 hs2).2
      have h3 : (l.map key).Nodup := by
        simp only [List.map_cons, List.nodup_cons] at hnd
        exact hnd.2
      rw [ih l2 htail h1 h2 h3]

theorem sortFiles_perm_eq (files files2 : List ZipEntry) (hp : files.Perm files2)
    (hnames : (files.map ZipEntry.name).Nodup) :
    sortFiles files = sortFiles files2 := by
  haveI h1 : IsTotal ZipEntry (fun a b => a.name ≤ b.name) := ⟨fun a b => le_total a.name b.name⟩
  haveI h2 : IsTrans ZipEntry (fun a b => a.name ≤ b.name) :=
    ⟨fun a b c hab hbc => le_trans hab hbc⟩
  refine sorted_nodupkeys_eq ZipEntry.name _ _ ?_ ?_ ?_ ?_
  · exact (List.perm_insertionSort _ files).trans
      (hp.trans (List.perm_insertionSort _ files2).symm)
  · exact List.sorted_insertionSort _ files
  · exact List.sorted_insertionSort _ files2
  · exact ((List.perm_insertionSort _ files).map ZipEntry.name).symm.nodup hnames

/-- C9: one signing run's `MANIFEST.MF` and `CERT.SF` bytes are a function
of the input archive's entry multiset and the old manifest's contents
alone: permuting the archive's entry order (the unstable `sort.Slice`
input) and the old manifest's association order (Go map iteration order)
changes neither, given duplicate-free entry names and manifest keys.  The
signature container itself is the external primitive's output and is
outside this model. -/
theorem c9_sign_deterministic (sha1 b64 : Bytes → Bytes) (old old2 : Manifest)
    (files files2 : List ZipEntry)
    (hf : files.Perm files2) (ho : old.Perm old2)
    (hnames : (files.map ZipEntry.name).Nodup)
    (hkeys : (old.map Prod.fst).Nodup) :
    signZipManifestBytes sha1 b64 old files = signZipManifestBytes sha1 b64 old2 files2 ∧
    signZipCertSf sha1 b64 old files = signZipCertSf sha1 b64 old2 files2 := by
  have hsort : sortFiles files = sortFiles files2 := sortFiles_perm_eq _ _ hf hnames
  have hlk : Manifest.lookup old = Manifest.lookup old2 :=
    funext (fun k => lookup_perm k old old2 ho hkeys)
  have hman : signZipManifest sha1 b64 old files = signZipManifest sha1 b64 old2 files2 := by
    rw [signZipManifest, signZipManifest, hsort, hlk]
  constructor
  · rw [signZipManifestBytes, signZipManifestBytes, hman]
  · rw [signZipCertSf, signZipCertSf, hman, hsort]

/-- Witness: determinism at a concrete two-entry archive given in the two
orders. -/
theorem c9_sign_deterministic_witness :
    ([⟨"b".data, false, "x".data⟩, ⟨"a".data, false, "y".data⟩] : List ZipEntry).Perm
        [⟨"a".data, false, "y".data⟩, ⟨"b".data, false, "x".data⟩] ∧
    ([(("k".data : Bytes), ["A: 1".data])] : Manifest).Perm [("k".data, ["A: 1".data])] ∧
    (([⟨"b".data, false, "x".data⟩, ⟨"a".data, false, "y".data⟩] : List ZipEntry).map
        ZipEntry.name).Nodup ∧
    (([(("k".data : Bytes), ["A: 1".data])] : Manifest).map Prod.fst).Nodup ∧
    (signZipManifestBytes (fun _ => []) (fun _ => []) [("k".data, ["A: 1".data])]
          [⟨"b".data, false, "x".data⟩, ⟨"a".data, false, "y".data⟩]
        = signZipManifestBytes (fun _ => []) (fun _ => []) [("k".data, ["A: 1".data])]
          [⟨"a".data, false, "y".data⟩, ⟨"b".data, false, "x".data⟩] ∧
      signZipCertSf (fun _ => []) (fun _ => []) [("k".data, ["A: 1".data])]
          [⟨"b".data, false, "x".data⟩, ⟨"a".data, false, "y".data⟩]
        = signZipCertSf (fun _ => []) (fun _ => []) [("k".data, ["A: 1".data])]
          [⟨"a".data, false, "y".data⟩, ⟨"b".data, false, "x".data⟩]) :=
  ⟨by decide, by decide, by decide, by decide,
    c9_sign_deterministic (fun _ => []) (fun _ => []) _ _ _ _ (by decide) (by decide)
      (by decide) (by decide)⟩

theorem parseLine_name (s : PState) (line : Bytes) (h1 : ¬line = [])
    (h2 : "Name: ".data.isPrefixOf line = true) :
    parseLine s line = ⟨s.m, line.drop 6, s.v⟩ := by
  rw [parseLine, if_neg h1, if_pos h2]

theorem parseLine_cont (s : PState) (line : Bytes) (h1 : ¬line = [])
    (h2 : ¬"Name: ".data.isPrefixOf line = true) (h3 : [' '].isPrefixOf line = true) :
    parseLine s line
      = if s.v.length = 0 then ⟨s.m, s.k ++ line.drop 1, s.v⟩
        else ⟨s.m, s.k, s.v.dropLast ++ [s.v.getLastD [] ++ line.drop 1]⟩ := by
  rw [parseLine, if_neg h1, if_neg h2, if_pos h3]

theorem parseLine_default (s : PState) (line : Bytes) (h1 : ¬line = [])
    (h2 : ¬"Name: ".data.isPrefixOf line = true) (h3 : ¬[' '].isPrefixOf line = true) :
    parseLine s line = ⟨s.m, s.k, s.v ++ [line]⟩ := by
  rw [parseLine, if_neg h1, if_neg h2, if_neg h3]

theorem name_not_isPrefixOf_space (T : Bytes) :
    ¬"Name: ".data.isPrefixOf (' ' :: T) = true := by
  rw [List.isPrefixOf_iff_prefix]
  rintro ⟨t, ht⟩
  rw [show "Name: ".data = 'N' :: "ame: ".data from rfl, List.cons_append] at ht
  simp at ht

theorem space_isPrefixOf_cons (c : Char) (X : Bytes) :
    [' '].isPrefixOf (c :: X) = (' ' == c) := by
  simp [List.isPrefixOf]

/-- One continuation step folds: parsing a line `L` and then a line
`' ' :: T` leaves the same state as parsing the single line `L ++ T`. -/
theorem parseLine_contFold (s : PState) (L T : Bytes) (hLne : L ≠ [])
    (hname : "Name: ".data.isPrefixOf (L ++ T) = true →
      "Name: ".data.isPrefixOf L = true)
    (hv : "Name: ".data.isPrefixOf L = true → s.v = []) :
    parseLine (parseLine s L) (' ' :: T) = parseLine s (L ++ T) := by
  have hLTne : ¬(L ++ T) = [] := by
    intro h
    exact hLne (List.append_eq_nil.1 h).1
  by_cases hN : "Name: ".data.isPrefixOf L = true
  · have hv0 := hv hN
    have hlen : 6 ≤ L.length := by
      have := List.isPrefixOf_iff_prefix.1 hN
      simpa using this.length_le
    have hNT : "Name: ".data.isPrefixOf (L ++ T) = true := by
      rw [List.isPrefixOf_iff_prefix] at hN ⊢
      exact hN.trans (List.prefix_append L T)
    rw [parseLine_name s L hLne hN, parseLine_name s (L ++ T) hLTne hNT]
    rw [parseLine_cont _ _ (by simp) (name_not_isPrefixOf_space T)
      (by rw [space_isPrefixOf_cons]; simp)]
    rw [if_pos (by simpa using hv0)]
    simp [List.drop_append_of_le_length hlen, hv0]
  · by_cases hS : [' '].isPrefixOf L = true
    · obtain ⟨c, L2, rfl⟩ : ∃ c L2, L = c :: L2 := by
        cases L with
        | nil => exact absurd rfl hLne
        | cons c L2 => exact ⟨c, L2, rfl⟩
      have hc : c = ' ' := by
        rw [space_isPrefixOf_cons] at hS
        exact (beq_iff_eq.1 hS).symm
      subst hc
      have hNT : ¬"Name: ".data.isPrefixOf ((' ' :: L2) ++ T) = true := by
        rw [List.cons_append]
        exact name_not_isPrefixOf_space _
      rw [parseLine_cont s _ hLne hN hS, parseLine_cont s _ hLTne hNT
        (by rw [List.cons_append, space_isPrefixOf_cons]; simp)]
      by_cases hvlen : s.v.length = 0
      · rw [if_pos hvlen]
        rw [parseLine_cont _ _ (by simp) (name_not_isPrefixOf_space T)
          (by rw [space_isPrefixOf_cons]; simp)]
        rw [if_pos (by simpa using hvlen), if_pos hvlen]
        simp
      · rw [if_neg hvlen]
        rw [parseLine_cont _ _ (by simp) (name_not_isPrefixOf_space T)
          (by rw [space_isPrefixOf_cons]; simp)]
        rw [if_neg (by simp), if_neg hvlen]
        simp only [List.dropLast_concat, List.getLastD_concat]
        simp
    · have hNT : ¬"Name: ".data.isPrefixOf (L ++ T) = true := fun h => hN (hname h)
      obtain ⟨c, L2, rfl⟩ : ∃ c L2, L = c :: L2 := by
        cases L with
        | nil => exact absurd rfl hLne
        | cons c L2 => exact ⟨c, L2, rfl⟩
      have hST : ¬[' '].isPrefixOf ((c :: L2) ++ T) = true := by
        rw [List.cons_append, space_isPrefixOf_cons]
        rw [space_isPrefixOf_cons] at hS
        exact hS
      rw [parseLine_default s _ hLne hN hS, parseLine_default s _ hLTne hNT hST]
      rw [parseLine_cont _ _ (by simp) (name_not_isPrefixOf_space T)
        (by rw [space_isPrefixOf_cons]; simp)]
      rw [if_neg (by simp)]
      simp only [List.dropLast_concat, List.getLastD_concat]
      simp

theorem mfLines_join (pls : List Bytes) (x : Bytes)
    (h : ∀ l ∈ pls, ∀ c ∈ l, crlfByte c = false) :
    mfLines ((pls.map (fun l => l ++ CRLF)).flatten ++ x) = pls ++ mfLines x := by
  induction pls with
  | nil => simp
  | cons l pls ih =>
    have hsh : (((l :: pls).map (fun l => l ++ CRLF)).flatten ++ x)
        = l ++ '\r' :: '\n' :: ((pls.map (fun l => l ++ CRLF)).flatten ++ x) := by
      simp [CRLF]
    rw [hsh, mfLines_line _ _ (h l (by simp)), ih (fun l2 h2 => h l2 (by simp [h2]))]
    simp

/-- C4: a physical line, its CR LF terminator, and a following line that
begins with a single space parse exactly as the two lines' concatenation
with that space dropped — the continuation content is appended with no
separator and no characters altered onto the most recently open value.
The side conditions pin the code's corner cases: wrapping must not change
the first line's classification (`hname`), and a continuation directly
after a `Name:` line extends the section name only while the section's
attribute block is still empty, as the code otherwise folds into the last
attribute line (`hv`). -/
theorem c4_continuation_fold (pls : List Bytes) (L T rest : Bytes)
    (hpls : ∀ l ∈ pls, ∀ c ∈ l, crlfByte c = false)
    (hL : ∀ c ∈ L, crlfByte c = false) (hLne : L ≠ [])
    (hT : ∀ c ∈ T, crlfByte c = false)
    (hname : "Name: ".data.isPrefixOf (L ++ T) = true →
      "Name: ".data.isPrefixOf L = true)
    (hv : "Name: ".data.isPrefixOf L = true →
      (pls.foldl parseLine ⟨[], [], []⟩).v = []) :
    ParseManifest ((pls.map (fun l => l ++ CRLF)).flatten
        ++ L ++ '\r' :: '\n' :: ' ' :: (T ++ '\r' :: '\n' :: rest))
      = ParseManifest ((pls.map (fun l => l ++ CRLF)).flatten
        ++ (L ++ T) ++ '\r' :: '\n' :: rest) := by
  rw [ParseManifest, ParseManifest]
  rw [List.append_assoc, List.append_assoc]
  rw [mfLines_join pls _ hpls, mfLines_join pls _ hpls]
  rw [mfLines_line L _ hL]
  rw [show (' ' :: (T ++ '\r' :: '\n' :: rest)) = (' ' :: T) ++ '\r' :: '\n' :: rest from by
    simp]
  rw [mfLines_line (' ' :: T) rest (by
    intro c hc
    rcases List.mem_cons.1 hc with rfl | hc
    · simp [crlfByte]
    · exact hT c hc)]
  rw [mfLines_line (L ++ T) rest (by
    intro c hc
    rcases List.mem_append.1 hc with hc | hc
    · exact hL c hc
    · exact hT c hc)]
  rw [List.foldl_append, List.foldl_append]
  simp only [List.foldl_cons]
  rw [parseLine_contFold _ L T hLne hname hv]

/-- Witness: the fold at a concrete wrapped attribute line. -/
theorem c4_continuation_fold_witness :
    (∀ l ∈ ([] : List Bytes), ∀ c ∈ l, crlfByte c = false) ∧
    (∀ c ∈ "Key: ab".data, crlfByte c = false) ∧
    "Key: ab".data ≠ [] ∧
    (∀ c ∈ "cd".data, crlfByte c = false) ∧
    ("Name: ".data.isPrefixOf ("Key: ab".data ++ "cd".data) = true →
      "Name: ".data.isPrefixOf "Key: ab".data = true) ∧
    ("Name: ".data.isPrefixOf "Key: ab".data = true →
      (([] : List Bytes).foldl parseLine ⟨[], [], []⟩).v = []) ∧
    ParseManifest ((([] : List Bytes).map (fun l => l ++ CRLF)).flatten
        ++ "Key: ab".data ++ '\r' :: '\n' :: ' ' :: ("cd".data ++ '\r' :: '\n' :: []))
      = ParseManifest ((([] : List Bytes).map (fun l => l ++ CRLF)).flatten
        ++ ("Key: ab".data ++ "cd".data) ++ '\r' :: '\n' :: []) :=
  ⟨by decide, by decide, by decide, by decide, by decide, by decide,
    c4_continuation_fold [] "Key: ab".data "cd".data [] (by decide) (by decide) (by decide)
      (by decide) (by decide) (by decide)⟩

theorem wrapDoc_append (a b : List Bytes) : wrapDoc (a ++ b) = wrapDoc a ++ wrapDoc b := by
  simp [wrapDoc]

theorem wrap72Write_crlf : wrap72Write CRLF 0 = (CRLF, 0) := by
  rw [wrap72Write_eq_charRun _ _ (by omega)]
  decide

theorem nameHeader_free : ∀ c ∈ "Name: ".data, crlfByte c = false := by decide

theorem writeEntry_eq (m : Manifest) (nm : Bytes)
    (hnm : ∀ c ∈ nm, crlfByte c = false)
    (hattr : ∀ a ∈ m.lookup nm, ∀ c ∈ a, crlfByte c = false) :
    writeEntry m nm = wrapDoc (("Name: ".data ++ nm) :: m.lookup nm) := by
  rw [writeEntry, feedAll_eq_charRun _ _ (by omega)]
  have hsh : (("Name: ".data ++ nm ++ CRLF) :: (m.lookup nm).map (fun a => a ++ CRLF)).flatten
      = ((("Name: ".data ++ nm) :: m.lookup nm).map (fun l => l ++ CRLF)).flatten ++ [] := by
    simp
  rw [hsh]
  rw [charRun_joinCRLF _ _ (by
    intro l hl
    rcases List.mem_cons.1 hl with rfl | hl
    · intro c hc
      rcases List.mem_append.1 hc with hc | hc
      · exact nameHeader_free c hc
      · exact hnm c hc
    · exact hattr l hl)]
  simp [charRun]

theorem writeTo_fold_eq (m : Manifest) (names : List Bytes) (acc : Bytes)
    (hn : ∀ nm ∈ names, (∀ c ∈ nm, crlfByte c = false) ∧
      ∀ a ∈ m.lookup nm, ∀ c ∈ a, crlfByte c = false) :
    names.foldl (fun s nm =>
        ((s.1 ++ (wrap72Write CRLF s.2).1)
            ++ (wrap72Write (writeEntry m nm) (wrap72Write CRLF s.2).2).1,
          (wrap72Write (writeEntry m nm) (wrap72Write CRLF s.2).2).2)) (acc, 0)
      = (acc ++ wrapDoc (names.flatMap
          (fun nm => [] :: ("Name: ".data ++ nm) :: m.lookup nm)), 0) := by
  induction names generalizing acc with
  | nil => simp [wrapDoc]
  | cons nm names ih =>
    rw [List.foldl_cons]
    have h1 := hn nm (by simp)
    have hdocfree : ∀ l ∈ ("Name: ".data ++ nm) :: m.lookup nm, ∀ c ∈ l, crlfByte c = false := by
      intro l hl
      rcases List.mem_cons.1 hl with rfl | hl
      · intro c hc
        rcases List.mem_append.1 hc with hc | hc
        · exact nameHeader_free c hc
        · exact h1.1 c hc
      · exact h1.2 l hl
    have hentry : wrap72Write (writeEntry m nm) 0
        = (wrapDoc (("Name: ".data ++ nm) :: m.lookup nm), 0) := by
      rw [writeEntry_eq m nm h1.1 h1.2, wrap72Write_eq_charRun _ _ (by omega)]
      have := charRun_wrapDoc_id (("Name: ".data ++ nm) :: m.lookup nm) [] hdocfree
      simpa [charRun] using this
    simp only [wrap72Write_crlf, hentry]
    rw [ih _ (fun z hz => hn z (by simp [hz]))]
    have hdoc1 : wrapDoc [([] : Bytes)] = CRLF := by
      simp [wrapDoc, wrapLineCRLF, wrapAt]
    have hgroup : wrapDoc (((nm :: names).flatMap
          (fun nm => [] :: ("Name: ".data ++ nm) :: m.lookup nm)))
        = (CRLF ++ wrapDoc (("Name: ".data ++ nm) :: m.lookup nm))
          ++ wrapDoc (names.flatMap (fun nm => [] :: ("Name: ".data ++ nm) :: m.lookup nm)) := by
      rw [List.flatMap_cons,
        show ([] : Bytes) :: ("Name: ".data ++ nm) :: m.lookup nm
          = [([] : Bytes)] ++ ("Name: ".data ++ nm) :: m.lookup nm from rfl,
        wrapDoc_append, wrapDoc_append, hdoc1]
    rw [hgroup]
    simp [List.append_assoc]

theorem wrapDoc_blank : wrapDoc [([] : Bytes)] = CRLF := by
  simp [wrapDoc, wrapLineCRLF, wrapAt]

theorem wrapAt_chunks (m : Bytes) (n : Nat) :
    wrapAt m n ++ CRLF = ((chunkLinesAt m n).map (fun p => p ++ CRLF)).flatten := by
  induction m generalizing n with
  | nil => simp [wrapAt, chunkLinesAt]
  | cons c m ih =>
    by_cases h70 : n = 70
    · subst h70
      rw [wrapAt, if_pos rfl, chunkLinesAt, if_pos rfl]
      cases h : chunkLinesAt m 2 with
      | nil => exact absurd h (chunkLinesAt_ne_nil _ _)
      | cons q qs =>
        have ih2 := ih 2
        rw [h] at ih2
        simp only [consHead, List.map_cons, List.flatten_cons]
        simp only [List.map_cons, List.flatten_cons] at ih2
        simp [CRLF, List.append_assoc] at ih2 ⊢
        simp [ih2]
    · rw [wrapAt, if_neg h70, chunkLinesAt, if_neg h70]
      cases h : chunkLinesAt m (n + 1) with
      | nil => exact absurd h (chunkLinesAt_ne_nil _ _)
      | cons q qs =>
        have ih2 := ih (n + 1)
        rw [h] at ih2
        simp only [consHead, List.map_cons, List.flatten_cons]
        simp only [List.map_cons, List.flatten_cons] at ih2
        simp [CRLF, List.append_assoc] at ih2 ⊢
        simp [ih2]

theorem wrapDoc_chunks (ls : List Bytes) :
    wrapDoc ls
      = ((ls.flatMap (fun l => chunkLinesAt l 0)).map (fun p => p ++ CRLF)).flatten := by
  induction ls with
  | nil => simp [wrapDoc]
  | cons l ls ih =>
    rw [show wrapDoc (l :: ls) = wrapLineCRLF l ++ wrapDoc ls from by simp [wrapDoc]]
    rw [wrapLineCRLF, wrapAt_chunks, ih, List.flatMap_cons, List.map_append,
      List.flatten_append]

theorem chunkLinesAt_noCRLF (l : Bytes) : ∀ n : Nat, (∀ c ∈ l, crlfByte c = false) →
    ∀ p ∈ chunkLinesAt l n, ∀ c ∈ p, crlfByte c = false := by
  induction l with
  | nil =>
    intro n _
    simp [chunkLinesAt]
  | cons c m ih =>
    intro n hl
    have hc := hl c (by simp)
    have ih2 := fun k => ih k (fun d hd => hl d (by simp [hd]))
    by_cases h70 : n = 70
    · subst h70
      rw [chunkLinesAt, if_pos rfl]
      intro p hp
      rcases List.mem_cons.1 hp with rfl | hp
      · simp
      · cases h : chunkLinesAt m 2 with
        | nil => exact absurd h (chunkLinesAt_ne_nil _ _)
        | cons q qs =>
          rw [h] at hp
          simp only [consHead] at hp
          rcases List.mem_cons.1 hp with rfl | hp
          · intro d hd
            rcases List.mem_cons.1 hd with rfl | hd
            · simp [crlfByte]
            · rcases List.mem_cons.1 hd with rfl | hd
              · exact hc
              · exact ih2 2 q (by rw [h]; simp) d hd
          · exact ih2 2 p (by rw [h]; simp [hp])
    · rw [chunkLinesAt, if_neg h70]
      intro p hp
      cases h : chunkLinesAt m (n + 1) with
      | nil => exact absurd h (chunkLinesAt_ne_nil _ _)
      | cons q qs =>
        rw [h] at hp
        simp only [consHead] at hp
        rcases List.mem_cons.1 hp with rfl | hp
        · intro d hd
          rcases List.mem_cons.1 hd with rfl | hd
          · exact hc
          · exact ih2 (n + 1) q (by rw [h]; simp) d hd
        · exact ih2 (n + 1) p (by rw [h]; simp [hp])

theorem chunkLinesAt_head_cons (c : Char) (m : Bytes) (n : Nat) (hn : n ≠ 70) :
    ∃ h t, chunkLinesAt (c :: m) n = (c :: h) :: t := by
  rw [chunkLinesAt, if_neg hn]
  cases h : chunkLinesAt m (n + 1) with
  | nil => exact absurd h (chunkLinesAt_ne_nil _ _)
  | cons p ps => exact ⟨p, ps, by simp [consHead]⟩

theorem chunkLinesAt_head_full (m : Bytes) : ∀ n : Nat, n ≤ 70 →
    (chunkLinesAt m n).tail ≠ [] → ((chunkLinesAt m n).headD []).length = 70 - n := by
  induction m with
  | nil =>
    intro n _ ht
    simp [chunkLinesAt] at ht
  | cons c m ih =>
    intro n hn ht
    by_cases h70 : n = 70
    · subst h70
      rw [chunkLinesAt, if_pos rfl]
      simp
    · rw [chunkLinesAt, if_neg h70]
      rw [chunkLinesAt, if_neg h70] at ht
      cases h : chunkLinesAt m (n + 1) with
      | nil => exact absurd h (chunkLinesAt_ne_nil _ _)
      | cons p ps =>
        rw [h] at ht
        simp only [consHead] at ht ⊢
        simp only [List.tail_cons] at ht
        have hih := ih (n + 1) (by omega) (by rw [h]; simpa using ht)
        rw [h] at hih
        simp only [List.headD_cons] at hih
        simp only [List.headD_cons, List.length_cons]
        omega

theorem isPrefixOf_append_left : ∀ (P L T : Bytes), P.length ≤ L.length →
    P.isPrefixOf (L ++ T) = P.isPrefixOf L
  | [], _, _, _ => by simp [List.isPrefixOf]
  | p :: P, [], _, h => by simp at h
  | p :: P, l :: L, T, h => by
    rw [List.cons_append]
    show (p == l && P.isPrefixOf (L ++ T)) = (p == l && P.isPrefixOf L)
    rw [isPrefixOf_append_left P L T (by simp at h; omega)]

theorem mfLines_wrapDoc (ls : List Bytes) (hls : ∀ l ∈ ls, ∀ c ∈ l, crlfByte c = false) :
    mfLines (wrapDoc ls) = ls.flatMap (fun l => chunkLinesAt l 0) ++ [[], []] := by
  rw [wrapDoc_chunks]
  have hfree : ∀ p ∈ ls.flatMap (fun l => chunkLinesAt l 0), ∀ c ∈ p, crlfByte c = false := by
    intro p hp
    rcases List.mem_flatMap.1 hp with ⟨l, hl, hpl⟩
    exact chunkLinesAt_noCRLF l 0 (hls l hl) p hpl
  have h := mfLines_join (ls.flatMap (fun l => chunkLinesAt l 0)) [] hfree
  rw [List.append_nil] at h
  rw [show (fun p : Bytes => p ++ CRLF) = (fun l : Bytes => l ++ CRLF) from rfl, h,
    show mfLines [] = [[], []] from by decide]

theorem writeTo_eq_doc (M : Manifest) (hne : M ≠ [])
    (hmain : ∀ a ∈ M.lookup [], ∀ c ∈ a, crlfByte c = false)
    (hn : ∀ nm ∈ writeToNames M, (∀ c ∈ nm, crlfByte c = false) ∧
      ∀ a ∈ M.lookup nm, ∀ c ∈ a, crlfByte c = false) :
    writeTo M = some (wrapDoc (docLines M)) := by
  have hkeysne : M.keys ≠ [] := by
    cases M with
    | nil => exact absurd rfl hne
    | cons p ps => simp [Manifest.keys]
  cases hsort : List.insertionSort (fun a b : Bytes => a ≤ b) M.keys with
  | nil =>
    have hperm := List.perm_insertionSort (fun a b : Bytes => a ≤ b) M.keys
    rw [hsort] at hperm
    exact absurd hperm.symm.eq_nil hkeysne
  | cons n0 rest =>
    have hwtn : writeToNames M = if n0 = ([] : Bytes) then rest else n0 :: rest := by
      rw [writeToNames, hsort]
    simp only [writeTo, hsort]
    rw [← hwtn]
    have hs1 : feedAll ((M.lookup []).map (fun a => a ++ CRLF)) 0
        = (wrapDoc (M.lookup []), 0) := by
      rw [feedAll_eq_charRun _ _ (by omega)]
      have h := charRun_joinCRLF (M.lookup []) [] hmain
      rw [List.append_nil] at h
      simpa [charRun] using h
    rw [hs1, writeTo_fold_eq M (writeToNames M) (wrapDoc (M.lookup [])) hn,
      wrap72Write_crlf, docLines, wrapDoc_append, wrapDoc_append, wrapDoc_blank]

theorem parse_contList (s : PState) (ts : List Bytes) : ∀ (L : Bytes), L ≠ [] →
    (ts ≠ [] → 6 ≤ L.length) → (∀ t ∈ ts, t.head? = some ' ') →
    ("Name: ".data.isPrefixOf L = true → s.v = []) →
    ts.foldl parseLine (parseLine s L)
      = parseLine s (L ++ (ts.map (List.drop 1)).flatten) := by
  induction ts with
  | nil =>
    intro L _ _ _ _
    simp
  | cons t ts ih =>
    intro L hLne hL6 hts hv
    obtain ⟨T, rfl⟩ : ∃ T, t = ' ' :: T := by
      have h := hts t (by simp)
      cases t with
      | nil => simp at h
      | cons c T =>
        simp at h
        exact ⟨T, by rw [h]⟩
    have h6 : 6 ≤ L.length := hL6 (by simp)
    have hlen6 : ("Name: ".data).length ≤ L.length := by
      rw [show ("Name: ".data).length = 6 from rfl]
      exact h6
    rw [List.foldl_cons]
    rw [parseLine_contFold s L T hLne
      (fun hN => by rwa [isPrefixOf_append_left "Name: ".data L T hlen6] at hN) hv]
    rw [ih (L ++ T) (fun hh => hLne (List.append_eq_nil.1 hh).1)
      (fun _ => by rw [List.length_append]; omega)
      (fun z hz => hts z (by simp [hz]))
      (fun hN => hv (by rwa [isPrefixOf_append_left "Name: ".data L T hlen6] at hN))]
    simp [List.append_assoc]

theorem parse_chunkGroup (s : PState) (l : Bytes) (hl : ∀ c ∈ l, crlfByte c = false)
    (hv : "Name: ".data.isPrefixOf l = true → s.v = []) :
    (chunkLinesAt l 0).foldl parseLine s = parseLine s l := by
  by_cases hl0 : l = []
  · subst hl0
    rw [show chunkLinesAt [] 0 = [[]] from rfl]
    simp
  · obtain ⟨c, m, rfl⟩ : ∃ c m, l = c :: m := by
      cases l with
      | nil => exact absurd rfl hl0
      | cons c m => exact ⟨c, m, rfl⟩
    obtain ⟨h1, t, hck⟩ := chunkLinesAt_head_cons c m 0 (by omega)
    have hrecon := chunkLinesAt_reconstruct (c :: m) 0
    rw [hck] at hrecon
    simp only [List.headD_cons, List.tail_cons] at hrecon
    obtain ⟨hhead, htail⟩ := chunkLinesAt_bounds (c :: m) 0 (by omega)
    rw [hck] at htail
    simp only [List.tail_cons] at htail
    have h6 : t ≠ [] → 6 ≤ (c :: h1).length := by
      intro ht
      have hfull := chunkLinesAt_head_full (c :: m) 0 (by omega)
        (by rw [hck]; simpa using ht)
      rw [hck] at hfull
      simp only [List.headD_cons] at hfull
      omega
    have hts : ∀ p ∈ t, p.head? = some ' ' := fun p hp => (htail p hp).2.2
    have hvv : "Name: ".data.isPrefixOf (c :: h1) = true → s.v = [] := by
      intro hN
      refine hv ?_
      rw [List.isPrefixOf_iff_prefix] at hN ⊢
      exact hN.trans ⟨(t.map (List.drop 1)).flatten, hrecon⟩
    rw [hck, List.foldl_cons, parse_contList s t (c :: h1) (by simp) h6 hts hvv, hrecon]

theorem parseLine_blank_commit (s : PState) (hsk : s.v = [] → s.k = []) :
    parseLine s [] = ⟨commitB s, [], []⟩ := by
  unfold parseLine commitB
  rw [if_pos rfl]
  by_cases hv : s.v = []
  · rw [if_neg (by simp [hv]), if_pos hv]
    have hk := hsk hv
    cases s with
    | mk m k v =>
      simp only at hv hk
      rw [hv, hk]
  · rw [if_pos (by simpa [List.length_pos] using hv), if_neg hv]

theorem attrsFoldW (attrs : Attributes) : ∀ s : PState,
    (∀ a ∈ attrs, a ≠ [] ∧ "Name: ".data.isPrefixOf a = false ∧
      [' '].isPrefixOf a = false ∧ ∀ c ∈ a, crlfByte c = false) →
    (attrs.flatMap (fun l => chunkLinesAt l 0)).foldl parseLine s
      = ⟨s.m, s.k, s.v ++ attrs⟩ := by
  induction attrs with
  | nil =>
    intro s _
    cases s with
    | mk m k v => simp
  | cons a attrs ih =>
    intro s h
    obtain ⟨ha1, ha2, ha3, ha4⟩ := h a (by simp)
    rw [List.flatMap_cons, List.foldl_append]
    rw [parse_chunkGroup s a ha4 (fun hN => absurd hN (by simp [ha2]))]
    rw [parseLine_default s a ha1 (by simp [ha2]) (by simp [ha3])]
    rw [ih _ (fun z hz => h z (by simp [hz]))]
    simp

theorem groupsFoldW (M : Manifest) (names : List Bytes) : ∀ s : PState,
    (∀ nm ∈ names, (∀ c ∈ nm, crlfByte c = false) ∧ M.lookup nm ≠ [] ∧
      ∀ a ∈ M.lookup nm, a ≠ [] ∧ "Name: ".data.isPrefixOf a = false ∧
        [' '].isPrefixOf a = false ∧ ∀ c ∈ a, crlfByte c = false) →
    (s.v = [] → s.k = []) →
    List.foldl parseLine s
        ((names.flatMap (fun nm => [] :: ("Name: ".data ++ nm) :: M.lookup nm)
          ++ [[]]).flatMap (fun l => chunkLinesAt l 0))
      = ⟨names.foldl (fun acc nm => acc.set nm (M.lookup nm)) (commitB s), [], []⟩ := by
  induction names with
  | nil =>
    intro s _ hsk
    simp only [List.flatMap_nil, List.nil_append, List.flatMap_cons, List.flatMap_nil,
      List.append_nil, List.foldl_nil]
    rw [show chunkLinesAt [] 0 = [[]] from rfl]
    simp only [List.foldl_cons, List.foldl_nil]
    rw [parseLine_blank_commit s hsk]
  | cons nm names ih =>
    intro s hgood hsk
    obtain ⟨hnmf, hlkne, hattrs⟩ := hgood nm (by simp)
    rw [List.flatMap_cons, List.append_assoc, List.flatMap_append, List.foldl_append]
    rw [List.flatMap_cons, List.flatMap_cons]
    rw [show chunkLinesAt [] 0 = [[]] from rfl]
    rw [List.foldl_append, List.foldl_append]
    simp only [List.foldl_cons, List.foldl_nil]
    rw [parseLine_blank_commit s hsk]
    have hnlf : ∀ c ∈ "Name: ".data ++ nm, crlfByte c = false := by
      intro c hc
      rcases List.mem_append.1 hc with hc | hc
      · exact nameHeader_free c hc
      · exact hnmf c hc
    rw [parse_chunkGroup ⟨commitB s, [], []⟩ ("Name: ".data ++ nm) hnlf (fun _ => rfl)]
    rw [parseLine_name _ _
      (fun hh => absurd (List.append_eq_nil.1 hh).1 (by decide))
      (List.isPrefixOf_iff_prefix.2 (List.prefix_append _ _))]
    have hdrop : ("Name: ".data ++ nm).drop 6 = nm := by
      rw [show (6 : Nat) = ("Name: ".data).length from rfl, List.drop_left]
    simp only [hdrop]
    rw [attrsFoldW (M.lookup nm) _ hattrs]
    simp only [List.nil_append]
    rw [ih _ (fun z hz => hgood z (by simp [hz])) (fun hvv => absurd hvv hlkne)]
    have hcb : commitB ⟨commitB s, nm, M.lookup nm⟩
        = (commitB s).set nm (M.lookup nm) := by
      unfold commitB
      simp only
      rw [if_neg hlkne]
    rw [hcb]

theorem lookup_eq_nil (M : Manifest) (k : Bytes) (hk : k ∉ M.keys) : M.lookup k = [] := by
  induction M with
  | nil => rfl
  | cons p rest ih =>
    simp only [Manifest.keys, List.map_cons, List.mem_cons, not_or] at hk
    rw [Manifest.lookup, if_neg (fun h => hk.1 h.symm)]
    exact ih hk.2

theorem lookup_mem (M : Manifest) (k : Bytes) (hk : k ∈ M.keys) : (k, M.lookup k) ∈ M := by
  induction M with
  | nil => simp [Manifest.keys] at hk
  | cons p rest ih =>
    rw [Manifest.lookup]
    by_cases h : p.1 = k
    · rw [if_pos h]
      subst h
      exact List.mem_cons.2 (Or.inl Prod.mk.eta)
    · rw [if_neg h]
      simp only [Manifest.keys, List.map_cons, List.mem_cons] at hk
      rcases hk with hk | hk
      · exact absurd hk.symm h
      · exact List.mem_cons.2 (Or.inr (ih hk))

theorem set_keys_absent (m : Manifest) (k : Bytes) (v : Attributes) (hk : k ∉ m.keys) :
    (m.set k v).keys = m.keys ++ [k] := by
  induction m with
  | nil => rfl
  | cons p rest ih =>
    simp only [Manifest.keys, List.map_cons, List.mem_cons, not_or] at hk
    rw [Manifest.set, if_neg (fun h => hk.1 h.symm)]
    simp only [Manifest.keys, List.map_cons] at ih ⊢
    rw [ih hk.2]
    simp

theorem set_lookup_self (m : Manifest) (k : Bytes) (v : Attributes) :
    (m.set k v).lookup k = v := by
  induction m with
  | nil => simp [Manifest.set, Manifest.lookup]
  | cons p rest ih =>
    rw [Manifest.set]
    by_cases h : p.1 = k
    · rw [if_pos h, Manifest.lookup, if_pos rfl]
    · rw [if_neg h, Manifest.lookup, if_neg h]
      exact ih

theorem set_lookup_other (m : Manifest) (k j : Bytes) (v : Attributes) (h : j ≠ k) :
    (m.set k v).lookup j = m.lookup j := by
  induction m with
  | nil =>
    rw [Manifest.set,
      show Manifest.lookup [(k, v)] j = if k = j then v else Manifest.lookup [] j from rfl,
      if_neg (fun hh => h hh.symm)]
  | cons p rest ih =>
    rw [Manifest.set]
    by_cases hp : p.1 = k
    · rw [if_pos hp, Manifest.lookup, if_neg (fun hh => h hh.symm), Manifest.lookup,
        if_neg (by rw [hp]; exact fun hh => h hh.symm)]
    · rw [if_neg hp, Manifest.lookup, Manifest.lookup]
      by_cases hj : p.1 = j
      · rw [if_pos hj, if_pos hj]
      · rw [if_neg hj, if_neg hj]
        exact ih

theorem foldl_set_keys (M : Manifest) (names : List Bytes) : ∀ base : Manifest,
    names.Nodup → (∀ nm ∈ names, nm ∉ base.keys) →
    (names.foldl (fun acc nm => acc.set nm (M.lookup nm)) base).keys
      = base.keys ++ names := by
  induction names with
  | nil =>
    intro base _ _
    simp
  | cons nm names ih =>
    intro base hnd hdisj
    rw [List.foldl_cons]
    have hnm := hdisj nm (by simp)
    rw [ih _ hnd.of_cons (fun z hz => by
      rw [set_keys_absent base nm _ hnm]
      simp only [List.mem_append, List.mem_singleton, not_or]
      exact ⟨hdisj z (by simp [hz]), fun he => (List.nodup_cons.1 hnd).1 (he ▸ hz)⟩)]
    rw [set_keys_absent base nm _ hnm]
    simp

theorem foldl_set_lookup (M : Manifest) (names : List Bytes) (k : Bytes) :
    ∀ base : Manifest, names.Nodup → (∀ nm ∈ names, nm ∉ base.keys) →
    (names.foldl (fun acc nm => acc.set nm (M.lookup nm)) base).lookup k
      = if k ∈ names then M.lookup k else base.lookup k := by
  induction names with
  | nil =>
    intro base _ _
    simp
  | cons nm names ih =>
    intro base hnd hdisj
    have hnm := hdisj nm (by simp)
    rw [List.foldl_cons]
    rw [ih _ hnd.of_cons (fun z hz => by
      rw [set_keys_absent base nm _ hnm]
      simp only [List.mem_append, List.mem_singleton, not_or]
      exact ⟨hdisj z (by simp [hz]), fun he => (List.nodup_cons.1 hnd).1 (he ▸ hz)⟩)]
    by_cases hk : k ∈ names
    · rw [if_pos hk, if_pos (by simp [hk])]
    · rw [if_neg hk]
      by_cases hknm : k = nm
      · subst hknm
        rw [if_pos (by simp), set_lookup_self]
      · rw [if_neg (by simp [hknm, hk]), set_lookup_other base nm k _ hknm]

theorem c2_setup (M : Manifest) (hne : M ≠ []) (hnd : M.keys.Nodup)
    (hmain_ne : ([] : Bytes) ∈ M.keys → M.lookup [] ≠ []) :
    (writeToNames M).Nodup ∧
    (∀ nm ∈ writeToNames M, nm ∉ (c2Base M).keys) ∧
    ((c2Base M).keys ++ writeToNames M).Perm M.keys := by
  have hkeysne : M.keys ≠ [] := by
    cases M with
    | nil => exact absurd rfl hne
    | cons p ps => simp [Manifest.keys]
  have hperm := List.perm_insertionSort (fun a b : Bytes => a ≤ b) M.keys
  have hsortednd : (List.insertionSort (fun a b : Bytes => a ≤ b) M.keys).Nodup :=
    hperm.symm.nodup hnd
  haveI : IsTotal Bytes (fun a b : Bytes => a ≤ b) := ⟨fun a b => le_total a b⟩
  haveI : IsTrans Bytes (fun a b : Bytes => a ≤ b) := ⟨fun a b c => le_trans⟩
  have hsorted := List.sorted_insertionSort (fun a b : Bytes => a ≤ b) M.keys
  cases hsort : List.insertionSort (fun a b : Bytes => a ≤ b) M.keys with
  | nil =>
    rw [hsort] at hperm
    exact absurd hperm.symm.eq_nil hkeysne
  | cons n0 rest =>
    rw [hsort] at hperm hsortednd hsorted
    have hwtn : writeToNames M = if n0 = ([] : Bytes) then rest else n0 :: rest := by
      rw [writeToNames, hsort]
    by_cases hmem : ([] : Bytes) ∈ M.keys
    · have h0 : n0 = ([] : Bytes) := by
        have hin : ([] : Bytes) ∈ n0 :: rest := hperm.mem_iff.2 hmem
        rcases List.mem_cons.1 hin with h | h
        · exact h.symm
        · have hle : n0 ≤ ([] : Bytes) := (List.sorted_cons.1 hsorted).1 [] h
          cases hn0 : n0 with
          | nil => rfl
          | cons c cs =>
            rw [hn0] at hle
            exact absurd (lt_of_lt_of_le (List.nil_lt_cons c cs) hle) (lt_irrefl _)
      have hlk : M.lookup [] ≠ [] := hmain_ne hmem
      have hbase : c2Base M = [([], M.lookup [])] := by rw [c2Base, if_neg hlk]
      rw [hwtn, if_pos h0, hbase]
      have hnotin : ([] : Bytes) ∉ rest := by
        rw [← h0]
        exact (List.nodup_cons.1 hsortednd).1
      refine ⟨(List.nodup_cons.1 hsortednd).2, ?_, ?_⟩
      · intro nm hnm hnmb
        simp only [Manifest.keys, List.map_cons, List.map_nil, List.mem_singleton] at hnmb
        exact hnotin (hnmb ▸ hnm)
      · have hk : Manifest.keys [([], M.lookup [])] ++ rest = ([] : Bytes) :: rest := by
          simp [Manifest.keys]
        rw [hk, ← h0]
        exact hperm
    · have hlk : M.lookup [] = [] := lookup_eq_nil M [] hmem
      have hbase : c2Base M = [] := by rw [c2Base, if_pos hlk]
      have h0 : ¬ n0 = ([] : Bytes) := by
        intro h
        exact hmem (hperm.mem_iff.1 (by simp [h]))
      rw [hwtn, if_neg h0, hbase]
      exact ⟨hsortednd, by simp [Manifest.keys], by simpa using hperm⟩

theorem writeToNames_subset (M : Manifest) (nm : Bytes) (h : nm ∈ writeToNames M) :
    nm ∈ M.keys := by
  have hperm := List.perm_insertionSort (fun a b : Bytes => a ≤ b) M.keys
  cases hsort : List.insertionSort (fun a b : Bytes => a ≤ b) M.keys with
  | nil =>
    rw [show writeToNames M = [] from by rw [writeToNames, hsort]] at h
    simp at h
  | cons n0 rest =>
    rw [show writeToNames M = if n0 = ([] : Bytes) then rest else n0 :: rest from by
      rw [writeToNames, hsort]] at h
    rw [hsort] at hperm
    refine hperm.mem_iff.1 ?_
    by_cases h0 : n0 = ([] : Bytes)
    · rw [if_pos h0] at h
      exact List.mem_cons.2 (Or.inr h)
    · rw [if_neg h0] at h
      exact h

theorem parse_wrapDoc (M : Manifest)
    (hmain : ∀ a ∈ M.lookup [], a ≠ [] ∧ "Name: ".data.isPrefixOf a = false ∧
      [' '].isPrefixOf a = false ∧ ∀ c ∈ a, crlfByte c = false)
    (hn : ∀ nm ∈ writeToNames M, (∀ c ∈ nm, crlfByte c = false) ∧ M.lookup nm ≠ [] ∧
      ∀ a ∈ M.lookup nm, a ≠ [] ∧ "Name: ".data.isPrefixOf a = false ∧
        [' '].isPrefixOf a = false ∧ ∀ c ∈ a, crlfByte c = false) :
    ParseManifest (wrapDoc (docLines M))
      = (writeToNames M).foldl (fun acc nm => acc.set nm (M.lookup nm)) (c2Base M) := by
  have hfree : ∀ l ∈ docLines M, ∀ c ∈ l, crlfByte c = false := by
    intro l hl
    rw [docLines] at hl
    rcases List.mem_append.1 hl with hl | hl
    · rcases List.mem_append.1 hl with hl | hl
      · exact (hmain l hl).2.2.2
      · rcases List.mem_flatMap.1 hl with ⟨nm, hnm, hlnm⟩
        obtain ⟨hnmf, hlk, hattrs⟩ := hn nm hnm
        rcases List.mem_cons.1 hlnm with rfl | hlnm
        · simp
        · rcases List.mem_cons.1 hlnm with rfl | hlnm
          · intro c hc
            rcases List.mem_append.1 hc with hc | hc
            · exact nameHeader_free c hc
            · exact hnmf c hc
          · exact (hattrs l hlnm).2.2.2
    · simp only [List.mem_singleton] at hl
      subst hl
      simp
  have hmainFold : List.foldl parseLine ⟨[], [], []⟩
      ((M.lookup []).flatMap (fun l => chunkLinesAt l 0)) = ⟨[], [], M.lookup []⟩ := by
    rw [attrsFoldW (M.lookup []) ⟨[], [], []⟩ hmain]
    simp
  have hcb : commitB ⟨[], [], M.lookup []⟩ = c2Base M := by
    rw [show commitB ⟨[], [], M.lookup []⟩
        = if M.lookup [] = [] then ([] : Manifest)
          else Manifest.set [] [] (M.lookup []) from rfl]
    rw [c2Base]
    split <;> rfl
  rw [ParseManifest, mfLines_wrapDoc (docLines M) hfree, List.foldl_append]
  rw [docLines, List.append_assoc, List.flatMap_append, List.foldl_append]
  rw [hmainFold]
  rw [groupsFoldW M (writeToNames M) ⟨[], [], M.lookup []⟩ hn (fun _ => rfl)]
  simp only [List.foldl_cons, List.foldl_nil]
  rw [parseLine_blank_id _ (parseLine_blank_v _), parseLine_blank_id _ rfl]
  rw [hcb]

theorem good_lookup (M : Manifest) (hM : goodManifest M) (nm : Bytes)
    (hnm : nm ∈ M.keys) :
    (∀ c ∈ nm, crlfByte c = false) ∧ M.lookup nm ≠ [] ∧
      ∀ a ∈ M.lookup nm, a ≠ [] ∧ "Name: ".data.isPrefixOf a = false ∧
        [' '].isPrefixOf a = false ∧ ∀ c ∈ a, crlfByte c = false := by
  have hp := lookup_mem M nm hnm
  have h := hM.2 (nm, M.lookup nm) hp
  exact ⟨h.1, h.2.1, h.2.2⟩

/-- C2 (counterexample): the claim quantifies over every Manifest whose
names and values are free of pathological characters, but a manifest whose
section has zero attribute lines contains no pathological character at all
and still does not round-trip: `WriteTo` emits a bare `Name: x` section,
and `ParseManifest` never commits a section with no attribute lines, so the
parse of the serialized bytes is the empty Manifest, losing the section. -/
theorem c2_counterexample :
    c2CounterM ≠ [] ∧
    (∀ p ∈ c2CounterM, (∀ c ∈ p.1, crlfByte c = false) ∧
      ∀ a ∈ p.2, ∀ c ∈ a, crlfByte c = false) ∧
    writeTo c2CounterM = some (wrapDoc (docLines c2CounterM)) ∧
    ParseManifest (wrapDoc (docLines c2CounterM)) = [] := by
  refine ⟨by decide, by decide, ?_, by decide⟩
  exact writeTo_eq_doc c2CounterM (by decide) (by decide) (by decide)

/-- C2 (amended): for every non-empty Manifest `M` with duplicate-free
keys, CR/LF-free section names, and at least one attribute line per section
where each attribute line is non-empty, CR/LF-free, does not start with a
space and does not start with `"Name: "`, parsing the exact byte stream
`WriteTo` produces yields a Manifest with the same set of section names
and, for every name, the same ordered sequence of attribute lines. -/
theorem c2_roundtrip (M : Manifest) (hM : goodManifest M) (hne : M ≠ []) :
    writeTo M = some (wrapDoc (docLines M)) ∧
    (ParseManifest (wrapDoc (docLines M))).keys.Perm M.keys ∧
    ∀ nm : Bytes, (ParseManifest (wrapDoc (docLines M))).lookup nm = M.lookup nm := by
  obtain ⟨hnd, hgood⟩ := hM
  have hmain : ∀ a ∈ M.lookup [], a ≠ [] ∧ "Name: ".data.isPrefixOf a = false ∧
      [' '].isPrefixOf a = false ∧ ∀ c ∈ a, crlfByte c = false := by
    by_cases hmem : ([] : Bytes) ∈ M.keys
    · exact (good_lookup M ⟨hnd, hgood⟩ [] hmem).2.2
    · rw [lookup_eq_nil M [] hmem]
      simp
  have hn : ∀ nm ∈ writeToNames M, (∀ c ∈ nm, crlfByte c = false) ∧ M.lookup nm ≠ [] ∧
      ∀ a ∈ M.lookup nm, a ≠ [] ∧ "Name: ".data.isPrefixOf a = false ∧
        [' '].isPrefixOf a = false ∧ ∀ c ∈ a, crlfByte c = false :=
    fun nm hnm => good_lookup M ⟨hnd, hgood⟩ nm (writeToNames_subset M nm hnm)
  have hser := writeTo_eq_doc M hne (fun a ha => (hmain a ha).2.2.2)
    (fun nm hnm => ⟨(hn nm hnm).1, fun a ha => ((hn nm hnm).2.2 a ha).2.2.2⟩)
  have hpar := parse_wrapDoc M hmain hn
  obtain ⟨hndn, hdisj, hpermk⟩ := c2_setup M hne hnd
    (fun hmem => (good_lookup M ⟨hnd, hgood⟩ [] hmem).2.1)
  refine ⟨hser, ?_, ?_⟩
  · rw [hpar, foldl_set_keys M (writeToNames M) (c2Base M) hndn hdisj]
    exact hpermk
  · intro nm
    rw [hpar, foldl_set_lookup M (writeToNames M) nm (c2Base M) hndn hdisj]
    by_cases h : nm ∈ writeToNames M
    · rw [if_pos h]
    · rw [if_neg h]
      by_cases hb : M.lookup [] = []
      · rw [show c2Base M = [] from by rw [c2Base, if_pos hb]]
        have hnk : nm ∉ M.keys := by
          intro hk
          have hmem := hpermk.symm.mem_iff.1 hk
          rw [show c2Base M = [] from by rw [c2Base, if_pos hb]] at hmem
          simp only [Manifest.keys, List.map_nil, List.nil_append] at hmem
          exact h hmem
        rw [lookup_eq_nil M nm hnk]
        rfl
      · rw [show c2Base M = [([], M.lookup [])] from by rw [c2Base, if_neg hb]]
        by_cases h0 : nm = ([] : Bytes)
        · subst h0
          rw [show Manifest.lookup [(([] : Bytes), M.lookup [])] []
              = M.lookup [] from by rw [Manifest.lookup, if_pos rfl]]
        · have hnk : nm ∉ M.keys := by
            intro hk
            have hmem := hpermk.symm.mem_iff.1 hk
            rw [show c2Base M = [([], M.lookup [])] from by rw [c2Base, if_neg hb]] at hmem
            simp only [Manifest.keys, List.map_cons, List.map_nil] at hmem
            rcases List.mem_append.1 hmem with hmem | hmem
            · simp only [List.mem_singleton] at hmem
              exact h0 hmem
            · exact h hmem
          rw [lookup_eq_nil M nm hnk,
            show Manifest.lookup [(([] : Bytes), M.lookup [])] nm
              = if ([] : Bytes) = nm then M.lookup [] else Manifest.lookup [] nm from rfl,
            if_neg (fun hh => h0 hh.symm)]
          rfl

/-- Witness: the round-trip at a concrete two-section manifest whose main
section and named section both carry attribute lines. -/
theorem c2_roundtrip_witness :
    goodManifest [(([] : Bytes), ["Manifest-Version: 1.0".data]),
        ("a.txt".data, ["SHA1-Digest: abc".data, "X-Custom: 1".data])] ∧
    ([(([] : Bytes), ["Manifest-Version: 1.0".data]),
        ("a.txt".data, ["SHA1-Digest: abc".data, "X-Custom: 1".data])] : Manifest) ≠ [] ∧
    (writeTo [(([] : Bytes), ["Manifest-Version: 1.0".data]),
        ("a.txt".data, ["SHA1-Digest: abc".data, "X-Custom: 1".data])]
      = some (wrapDoc (docLines [(([] : Bytes), ["Manifest-Version: 1.0".data]),
        ("a.txt".data, ["SHA1-Digest: abc".data, "X-Custom: 1".data])])) ∧
    (ParseManifest (wrapDoc (docLines [(([] : Bytes), ["Manifest-Version: 1.0".data]),
        ("a.txt".data, ["SHA1-Digest: abc".data, "X-Custom: 1".data])]))).keys.Perm
      (Manifest.keys [(([] : Bytes), ["Manifest-Version: 1.0".data]),
        ("a.txt".data, ["SHA1-Digest: abc".data, "X-Custom: 1".data])]) ∧
    ∀ nm : Bytes,
      (ParseManifest (wrapDoc (docLines [(([] : Bytes), ["Manifest-Version: 1.0".data]),
          ("a.txt".data, ["SHA1-Digest: abc".data, "X-Custom: 1".data])]))).lookup nm
        = Manifest.lookup [(([] : Bytes), ["Manifest-Version: 1.0".data]),
            ("a.txt".data, ["SHA1-Digest: abc".data, "X-Custom: 1".data])] nm) :=
  ⟨by decide, by decide,
    c2_roundtrip [(([] : Bytes), ["Manifest-Version: 1.0".data]),
        ("a.txt".data, ["SHA1-Digest: abc".data, "X-Custom: 1".data])]
      (by decide) (by decide)⟩
